import Mathlib

set_option maxRecDepth 8192

/-!
Verification development for the umber-cli import reconciliation engine.

JavaScript strings are modelled as `List Char`; JavaScript numbers that are
used as identifiers are modelled as `Nat`; `null`/`undefined` identifiers are
modelled as `Option Nat`; thrown errors are modelled with `Except`.
Each definition is a shallow embedding of the corresponding function of the
source repository (file and lines are named in its doc comment).
-/

namespace Umber

/-- Strings of the JavaScript program, modelled as lists of characters. -/
abbrev Str := List Char

/-- Coercion from a Lean string literal to the model type. -/
def str (s : String) : Str := s.data

/-- Whitespace predicate used by the model of `String.prototype.trim`
(the ASCII subset of the JavaScript whitespace class). -/
def isWsChar (c : Char) : Bool :=
  c = ' ' || c = '\t' || c = '\n' || c = '\r' || c = '\x0b' || c = '\x0c'

/-- Model of `String.prototype.trim`: removes leading and trailing
whitespace characters. -/
def jsTrim (s : Str) : Str :=
  ((s.dropWhile isWsChar).reverse.dropWhile isWsChar).reverse

/-- Fuel-indexed scan of the model of global literal replacement; each
step consumes at least one character, so `s.length` fuel always
suffices (`jsReplaceAllGo_fuel`). -/
def jsReplaceAllGo (pat rep : Str) : Nat → Str → Str
  | 0, s => s
  | _ + 1, [] => []
  | fuel + 1, c :: rest =>
    if pat ≠ [] ∧ pat.isPrefixOf (c :: rest) then
      rep ++ jsReplaceAllGo pat rep fuel (rest.drop (pat.length - 1))
    else
      c :: jsReplaceAllGo pat rep fuel rest

/-- Model of `String.prototype.replace` with a global literal pattern
(`s.replace(/pat/g, rep)`): scans left to right and replaces each
non-overlapping occurrence of `pat` by `rep`. -/
def jsReplaceAll (pat rep s : Str) : Str :=
  jsReplaceAllGo pat rep s.length s

/-- Occurrence of `pat` as a prefix of `s` starting at index `i`. -/
def matchesAt (s pat : Str) (i : Nat) : Bool :=
  pat.isPrefixOf (s.drop i)

/-- Model of `String.prototype.lastIndexOf(pat, fromIndex)`: the greatest
index `i ≤ fromIndex` at which `pat` occurs in `s`, or `none` when there is
no such occurrence (JavaScript returns `-1`). -/
def jsLastIndexOf (s pat : Str) (fromIndex : Nat) : Option Nat :=
  ((List.range (fromIndex + 1)).filter (fun i => matchesAt s pat i)).getLast?

/-- Choice of the cut index for one iteration of the `chunkText` loop,
translated from `src/lib/utils.js` lines 67-80: start from `maxLength`,
then prefer the last newline, then the last sentence boundary `". "`
(cut placed just after it), then the last space, each accepted only when
it lies strictly past `maxLength / 2` (a JavaScript float comparison,
rendered exactly as `maxLength < 2 * i` on naturals). -/
def chunkSliceIndex (maxLength : Nat) (remainingText : Str) : Nat :=
  let lastNewline := jsLastIndexOf remainingText (str "\n") maxLength
  let lastSentence := jsLastIndexOf remainingText (str ". ") maxLength
  let lastSpace := jsLastIndexOf remainingText (str " ") maxLength
  match lastNewline with
  | some i =>
    if maxLength < 2 * i then i
    else match lastSentence with
      | some j =>
        if maxLength < 2 * j then j + 1
        else match lastSpace with
          | some k => if maxLength < 2 * k then k else maxLength
          | none => maxLength
      | none => match lastSpace with
        | some k => if maxLength < 2 * k then k else maxLength
        | none => maxLength
  | none =>
    match lastSentence with
    | some j =>
      if maxLength < 2 * j then j + 1
      else match lastSpace with
        | some k => if maxLength < 2 * k then k else maxLength
        | none => maxLength
    | none => match lastSpace with
      | some k => if maxLength < 2 * k then k else maxLength
      | none => maxLength

/-- One iteration of the `chunkText` loop body for the case
`remainingText.length > maxLength` (`src/lib/utils.js` lines 67-83):
returns the pushed chunk and the new remaining text, both trimmed. -/
def chunkStep (maxLength : Nat) (remainingText : Str) : Str × Str :=
  let sliceIndex := chunkSliceIndex maxLength remainingText
  (jsTrim (remainingText.take sliceIndex), jsTrim (remainingText.drop sliceIndex))

/-- The `while` loop of `chunkText` (`src/lib/utils.js` lines 61-84),
made total with explicit fuel; `chunkText` supplies `text.length` fuel,
which suffices whenever `maxLength ≥ 1` (for `maxLength = 0` the
JavaScript loop does not terminate). -/
def chunkGo (maxLength : Nat) : Nat → Str → List Str
  | 0, _ => []
  | fuel + 1, remainingText =>
    if remainingText.length = 0 then []
    else if remainingText.length ≤ maxLength then [remainingText]
    else
      let p := chunkStep maxLength remainingText
      p.1 :: chunkGo maxLength fuel p.2

/-- Model of `chunkText(text, maxLength)` from `src/lib/utils.js`
lines 53-87. -/
def chunkText (text : Str) (maxLength : Nat) : List Str :=
  if text.length ≤ maxLength then [text]
  else chunkGo maxLength text.length text

/-- Resolution of `"."` and `".."` segments by Node's
`path.posix.normalize` (the `normalizeString` helper): empty and `"."`
segments are dropped; a `".."` segment pops the previous kept segment,
except that for a relative path (`allowAboveRoot = true`) unmatched
`".."` segments are kept and for an absolute path they are dropped. -/
def normSegStep (allowAboveRoot : Bool) (acc : List Str) (seg : Str) : List Str :=
  if seg = [] ∨ seg = str "." then acc
  else if seg = str ".." then
    match acc.getLast? with
    | some l => if l = str ".." then acc ++ [seg] else acc.dropLast
    | none => if allowAboveRoot then [seg] else []
  else acc ++ [seg]

/-- Model of Node's `path.posix.normalize`. -/
def posixNormalize (p : Str) : Str :=
  if p = [] then str "."
  else
    let isAbsolute := p.head? = some '/'
    let trailingSeparator := p.getLast? = some '/'
    let segs := (p.splitOn '/').foldl (normSegStep (!isAbsolute)) []
    let body := (segs.intersperse (str "/")).flatten
    if body = [] then
      if isAbsolute then str "/"
      else if trailingSeparator then str "./" else str "."
    else
      (if isAbsolute then str "/" else []) ++ body ++
        (if trailingSeparator then str "/" else [])

/-- Model of Node's `path.posix.basename` (one-argument form): the last
path segment, ignoring trailing separators. -/
def posixBasename (p : Str) : Str :=
  (((p.reverse.dropWhile (· = '/')).takeWhile (· ≠ '/'))).reverse

/-- Model of Node's `path.posix.dirname`: everything before the separator
that terminates the last segment (trailing separators ignored), `"."`
when there is no such separator, with the root special cases of the
Node implementation. -/
def posixDirname (p : Str) : Str :=
  if p = [] then str "."
  else
    let hasRoot := p.head? = some '/'
    let afterSeg := (p.reverse.dropWhile (· = '/')).dropWhile (· ≠ '/')
    match afterSeg with
    | [] => if hasRoot then str "/" else str "."
    | _ :: rest =>
      if rest = [] then if hasRoot then str "/" else str "."
      else if hasRoot ∧ rest.length = 1 then str "//"
      else rest.reverse

/-- Model of Node's `path.posix.extname`: the suffix of the basename from
its last `'.'`, empty when the only `'.'` is the leading character of the
basename or there is none. -/
def posixExtname (p : Str) : Str :=
  let b := posixBasename p
  let afterLastDot := b.reverse.takeWhile (· ≠ '.')
  if afterLastDot.length = b.length then []
  else if afterLastDot.length + 1 = b.length then []
  else '.' :: afterLastDot.reverse

/-- Model of `String.prototype.replace` with a non-global single-character
pattern (`s.replace('.', '')` replaces only the first occurrence). -/
def jsReplaceFirst (pat : Char) (rep : Str) : Str → Str
  | [] => []
  | c :: rest => if c = pat then rep ++ rest else c :: jsReplaceFirst pat rep rest

/-- Model of `encodePath` from `src/lib/utils.js` lines 11-23: normalize,
turn backslashes into slashes, then replace every `'/'` by `"__"` and
every `'.'` by `"_dot_"`. -/
def encodePath (filePath : Str) : Str :=
  let normalizedPath := (posixNormalize filePath).map
    (fun c => if c = '\\' then '/' else c)
  jsReplaceAll (str ".") (str "_dot_")
    (jsReplaceAll (str "/") (str "__") normalizedPath)

/-- Model of `decodePath` from `src/lib/utils.js` lines 30-34: replace
every `"__"` by `'/'`, then every `"_dot_"` by `'.'`. -/
def decodePath (encodedPath : Str) : Str :=
  jsReplaceAll (str "_dot_") (str ".")
    (jsReplaceAll (str "__") (str "/") encodedPath)

/-- Model of `createFilenameTag` from the utils iteration in
`src/unnamed/part_005` lines 21-23: lowercase the filename, then replace
every character outside `a-z`, `0-9`, `_` with `'-'`. -/
def createFilenameTag (filename : Str) : Str :=
  (filename.map Char.toLower).map
    (fun c =>
      if ('a' ≤ c ∧ c ≤ 'z') ∨ ('0' ≤ c ∧ c ≤ '9') ∨ c = '_' then c else '-')

/-- Truncation to a 32-bit word. -/
def w32 (x : Nat) : Nat := x % 4294967296

/-- Right rotation of a 32-bit word. -/
def rotr (n x : Nat) : Nat := w32 ((x >>> n) ||| (x <<< (32 - n)))

/-- SHA-256 lowercase sigma 0. -/
def ssig0 (x : Nat) : Nat := (rotr 7 x) ^^^ (rotr 18 x) ^^^ (x >>> 3)

/-- SHA-256 lowercase sigma 1. -/
def ssig1 (x : Nat) : Nat := (rotr 17 x) ^^^ (rotr 19 x) ^^^ (x >>> 10)

/-- SHA-256 uppercase sigma 0. -/
def bsig0 (x : Nat) : Nat := (rotr 2 x) ^^^ (rotr 13 x) ^^^ (rotr 22 x)

/-- SHA-256 uppercase sigma 1. -/
def bsig1 (x : Nat) : Nat := (rotr 6 x) ^^^ (rotr 11 x) ^^^ (rotr 25 x)

/-- SHA-256 choice function. -/
def chF (x y z : Nat) : Nat := (x &&& y) ^^^ ((x ^^^ 4294967295) &&& z)

/-- SHA-256 majority function. -/
def majF (x y z : Nat) : Nat := (x &&& y) ^^^ (x &&& z) ^^^ (y &&& z)

/-- SHA-256 round constants. -/
def sha256K : List Nat :=
  [1116352408, 1899447441, 3049323471, 3921009573, 961987163, 1508970993,
   2453635748, 2870763221, 3624381080, 310598401, 607225278, 1426881987,
   1925078388, 2162078206, 2614888103, 3248222580, 3835390401, 4022224774,
   264347078, 604807628, 770255983, 1249150122, 1555081692, 1996064986,
   2554220882, 2821834349, 2952996808, 3210313671, 3336571891, 3584528711,
   113926993, 338241895, 666307205, 773529912, 1294757372, 1396182291,
   1695183700, 1986661051, 2177026350, 2456956037, 2730485921, 2820302411,
   3259730800, 3345764771, 3516065817, 3600352804, 4094571909, 275423344,
   430227734, 506948616, 659060556, 883997877, 958139571, 1322822218,
   1537002063, 1747873779, 1955562222, 2024104815, 2227730452, 2361852424,
   2428436474, 2756734187, 3204031479, 3329325298]

/-- SHA-256 initial hash state. -/
def sha256Init : List Nat :=
  [1779033703, 3144134277, 1013904242, 2773480762,
   1359893119, 2600822924, 528734635, 1541459225]

/-- Message-schedule extension: appends the next scheduled word. -/
def sha256ExtendGo : Nat → List Nat → List Nat
  | 0, w => w
  | k + 1, w =>
    let n := w.length
    sha256ExtendGo k
      (w ++ [w32 (ssig1 (w.getD (n - 2) 0) + w.getD (n - 7) 0 +
                  ssig0 (w.getD (n - 15) 0) + w.getD (n - 16) 0)])

/-- Full 64-word message schedule from a 16-word block. -/
def sha256Schedule (block : List Nat) : List Nat := sha256ExtendGo 48 block

/-- One SHA-256 compression round on the 8-word working state. -/
def sha256Round (st : List Nat) (k w : Nat) : List Nat :=
  match st with
  | [a, b, c, d, e, f, g, h] =>
    let t1 := w32 (h + bsig1 e + chF e f g + k + w)
    let t2 := w32 (bsig0 a + majF a b c)
    [w32 (t1 + t2), a, b, c, w32 (d + t1), e, f, g]
  | other => other

/-- SHA-256 compression of one 16-word block into the hash state. -/
def sha256Compress (h : List Nat) (block : List Nat) : List Nat :=
  let st := ((sha256Schedule block).zip sha256K).foldl
    (fun s p => sha256Round s p.2 p.1) h
  (h.zip st).map (fun p => w32 (p.1 + p.2))

/-- Big-endian byte rendering of `v` on `n` bytes. -/
def beBytes (n v : Nat) : List Nat :=
  (List.range n).map (fun i => (v >>> (8 * (n - 1 - i))) % 256)

/-- SHA-256 padding: a `0x80` byte, zeros to 56 mod 64, and the 64-bit
big-endian bit length. -/
def sha256Pad (msg : List Nat) : List Nat :=
  let l := msg.length
  msg ++ [0x80] ++ List.replicate ((120 - ((l + 1) % 64)) % 64) 0 ++
    beBytes 8 (l * 8)

/-- Splits a list into groups of `n` (fuel-indexed; callers pass the
length as fuel, which always suffices). -/
def groupGo (n : Nat) : Nat → List Nat → List (List Nat)
  | 0, _ => []
  | _ + 1, [] => []
  | fuel + 1, l => l.take n :: groupGo n fuel (l.drop n)

/-- Big-endian 4-byte group to 32-bit word. -/
def bytesToWord (bs : List Nat) : Nat := bs.foldl (fun a b => a * 256 + b) 0

/-- SHA-256 of a byte sequence, as the final 8-word state. -/
def sha256Words (msg : List Nat) : List Nat :=
  let padded := sha256Pad msg
  let blocks := (groupGo 64 padded.length padded).map
    (fun blk => (groupGo 4 blk.length blk).map bytesToWord)
  blocks.foldl sha256Compress sha256Init

/-- Lowercase hexadecimal digit. -/
def hexChar (n : Nat) : Char :=
  if n < 10 then Char.ofNat (48 + n) else Char.ofNat (87 + n)

/-- Lowercase hexadecimal rendering of a 32-bit word. -/
def wordHex (w : Nat) : Str :=
  (List.range 8).map (fun i => hexChar ((w >>> (4 * (7 - i))) % 16))

/-- UTF-8 encoding of one character (Node hashes strings as UTF-8). -/
def utf8Char (c : Char) : List Nat :=
  let n := c.toNat
  if n < 0x80 then [n]
  else if n < 0x800 then [0xc0 ||| (n >>> 6), 0x80 ||| (n &&& 63)]
  else if n < 0x10000 then
    [0xe0 ||| (n >>> 12), 0x80 ||| ((n >>> 6) &&& 63), 0x80 ||| (n &&& 63)]
  else
    [0xf0 ||| (n >>> 18), 0x80 ||| ((n >>> 12) &&& 63),
     0x80 ||| ((n >>> 6) &&& 63), 0x80 ||| (n &&& 63)]

/-- UTF-8 encoding of a model string. -/
def utf8Bytes (s : Str) : List Nat := s.flatMap utf8Char

/-- Model of `calculateHash` from `src/lib/utils.js` lines 41-43
(`createHash('sha256').update(content).digest('hex')`): the lowercase
hexadecimal SHA-256 digest of the UTF-8 bytes of `content`. -/
def calculateHash (content : Str) : Str :=
  ((sha256Words (utf8Bytes content)).map wordHex).flatten

/-- Decimal digit character. -/
def digitChar (n : Nat) : Char := Char.ofNat (48 + n)

/-- Decimal rendering helper (fuel-indexed). -/
def natToStrGo : Nat → Nat → Str
  | 0, _ => []
  | fuel + 1, n =>
    if n < 10 then [digitChar n]
    else natToStrGo fuel (n / 10) ++ [digitChar (n % 10)]

/-- Model of JavaScript number-to-string template interpolation for the
natural numbers used as identifiers. -/
def natToStr (n : Nat) : Str := natToStrGo (n + 1) n

/-- Case-insensitive string comparison, as in the repeated
`a.toLowerCase() === b.toLowerCase()` pattern of `src/lib/nodebb.js`. -/
def ciEq (a b : Str) : Bool := a.map Char.toLower == b.map Char.toLower

/-- Model of JavaScript `x || null` applied to a nullable category id:
`null`, `undefined` and `0` are all falsy and collapse to `null`. -/
def jsFalsyToNull (o : Option Nat) : Option Nat :=
  match o with
  | some 0 => none
  | x => x

/-- A category of the remote forum store. -/
structure RCategory where
  cid : Nat
  name : Str
  parentCid : Option Nat
deriving DecidableEq

/-- The custom metadata bag stored on an imported topic
(umber `customData`); fields a variant does not set keep their
defaults. -/
structure CustomData where
  source : Str := []
  repoUrl : Str := []
  filePath : Str := []
  contentHash : Str := []
  isChunked : Bool := false
  chunkCount : Nat := 1
deriving DecidableEq

/-- A topic of the remote forum store, with its main post inlined
(`mainPid`/`mainContent`). -/
structure RTopic where
  tid : Nat
  cid : Option Nat
  mainPid : Nat
  title : Str
  slug : Str
  tags : List Str
  mainContent : Str
  customData : CustomData
deriving DecidableEq

/-- A reply post of the remote forum store. -/
structure RReply where
  pid : Nat
  tid : Nat
  content : Str
deriving DecidableEq

/-- The remote forum state: fresh-id counters plus the created
categories, topics and replies. -/
structure Store where
  nextCid : Nat := 1
  nextTid : Nat := 1
  nextPid : Nat := 1
  categories : List RCategory := []
  topics : List RTopic := []
  replies : List RReply := []
deriving DecidableEq

/-- One HTTP request issued against the remote forum. The first argument
of `getCategories` records which path segment was being resolved when the
request was issued (attribution metadata of the model, not part of the
wire request). -/
inductive RemoteCall where
  | getCategories (seg : Str) (parentCid : Option Nat)
  | postCategory (name : Str) (parentCid : Option Nat)
  | getCategoryTopics (cid : Nat)
  | getTopicDetails (tid : Nat)
  | getTagTopics (tag : Str)
  | getSearchTag (tag : Str)
  | postTopic (title : Str) (cid : Option Nat)
  | putPost (pid : Nat)
  | putTopic (tid : Nat)
  | postReply (tid : Nat)
deriving DecidableEq

/-- Write requests are the POST and PUT requests; GET requests are
reads. -/
def RemoteCall.isWrite : RemoteCall → Bool
  | postCategory _ _ => true
  | postTopic _ _ => true
  | putPost _ => true
  | putTopic _ => true
  | postReply _ => true
  | _ => false

/-- A transport failure of one remote call: a non-2xx HTTP status or a
network error without a response. -/
inductive HttpErr where
  | status (code : Nat)
  | network
deriving DecidableEq

/-- The `error.response && error.response.status === 404` test. -/
def HttpErr.is404 : HttpErr → Bool
  | status code => code = 404
  | network => false

/-- Decidable equality for `Except` results of the interpreter. -/
instance {e : Type} {a : Type} [DecidableEq e] [DecidableEq a] :
    DecidableEq (Except e a) := fun
  | .ok x, .ok y => decidable_of_iff (x = y) (by simp)
  | .ok _, .error _ => isFalse (by simp)
  | .error _, .ok _ => isFalse (by simp)
  | .error x, .error y => decidable_of_iff (x = y) (by simp)

/-- Failure model of the remote transport: which calls fail, and how.
`noFail` is the failure-free transport. -/
def FailSpec := RemoteCall → Option HttpErr

/-- The failure-free transport. -/
def noFail : FailSpec := fun _ => none

/-- Model of `findTopicByMetadata(filenameTag, parentCid)` from
`src/lib/nodebb.js` lines 35-73: a falsy category id short-circuits to
`null`; otherwise the category topic list is fetched and scanned for a
topic carrying the tag (case-insensitively), whose details are then
fetched.  A 404 from either request is treated as not-found; any other
failure is rethrown (lines 65-72). -/
def findTopicByMetadata (F : FailSpec) (store : Store) (filenameTag : Str)
    (parentCid : Option Nat) : List RemoteCall × Except HttpErr (Option RTopic) :=
  match jsFalsyToNull parentCid with
  | none => ([], .ok none)
  | some cid =>
    let c1 := RemoteCall.getCategoryTopics cid
    match F c1 with
    | some e => ([c1], if e.is404 then .ok none else .error e)
    | none =>
      match (store.topics.filter (fun t => t.cid == some cid)).find?
          (fun t => t.tags.any (fun tg => ciEq tg filenameTag)) with
      | none => ([c1], .ok none)
      | some t =>
        let c2 := RemoteCall.getTopicDetails t.tid
        match F c2 with
        | some e => ([c1, c2], if e.is404 then .ok none else .error e)
        | none => ([c1, c2], .ok (some t))

/-- Segment loop of `findOrCreateCategoryByPath` from
`src/lib/nodebb.js` lines 123-141: for each path segment, list all
categories, match one by case-insensitive name whose (falsy-normalized)
parent is the current parent; descend into it, or create it and descend
into the new category.  Any request failure is rethrown. -/
def resolveSegs (F : FailSpec) :
    Store → Option Nat → List Str → List RemoteCall × Except HttpErr (Store × Option Nat)
  | store, parentCid, [] => ([], .ok (store, parentCid))
  | store, parentCid, part :: rest =>
    let g := RemoteCall.getCategories part parentCid
    match F g with
    | some e => ([g], .error e)
    | none =>
      match store.categories.find? (fun c =>
          ciEq c.name part && (jsFalsyToNull c.parentCid == parentCid)) with
      | some c =>
        let r := resolveSegs F store (some c.cid) rest
        (g :: r.1, r.2)
      | none =>
        let pc := RemoteCall.postCategory part parentCid
        match F pc with
        | some e => ([g, pc], .error e)
        | none =>
          let newCid := store.nextCid
          let store2 := { store with
            nextCid := newCid + 1,
            categories := store.categories ++ [⟨newCid, part, parentCid⟩] }
          let r := resolveSegs F store2 (some newCid) rest
          (g :: pc :: r.1, r.2)

/-- Model of `findOrCreateCategoryByPath(categoryPath, baseCid)` from
`src/lib/nodebb.js` lines 114-143: `"."` or an empty path returns the
base id; otherwise the path is split on the separator and resolved
segment by segment starting from the base id. -/
def findOrCreateCategoryByPath (F : FailSpec) (store : Store) (categoryPath : Str)
    (baseCid : Option Nat) : List RemoteCall × Except HttpErr (Store × Option Nat) :=
  if categoryPath = str "." ∨ categoryPath = [] then ([], .ok (store, baseCid))
  else resolveSegs F store baseCid (categoryPath.splitOn '/')

/-- Payload of a topic-creation request. -/
structure TopicPayload where
  cid : Option Nat
  title : Str
  content : Str
  uid : Nat
  tags : List Str
  customData : CustomData
deriving DecidableEq

/-- Model of `createTopic(topicData)` from `src/lib/nodebb.js`
lines 80-90: posts the topic and returns the created topic record; the
forum-generated slug is modelled as a deterministic function of the
title.  A failure is rethrown. -/
def createTopic (F : FailSpec) (store : Store) (d : TopicPayload) :
    List RemoteCall × Except HttpErr (Store × RTopic) :=
  let call := RemoteCall.postTopic d.title d.cid
  match F call with
  | some e => ([call], .error e)
  | none =>
    let t : RTopic := {
      tid := store.nextTid, cid := d.cid, mainPid := store.nextPid,
      title := d.title, slug := createFilenameTag d.title, tags := d.tags,
      mainContent := d.content, customData := d.customData }
    ([call], .ok ({ store with
      nextTid := store.nextTid + 1, nextPid := store.nextPid + 1,
      topics := store.topics ++ [t] }, t))

/-- Model of `updateTopic(tid, pid, topicData)` from `src/lib/nodebb.js`
lines 99-112: only the main post content is written (`PUT /posts/:pid`);
the custom metadata passed by the caller is NOT sent (the source comments
that updating topic `customData` is not supported this way). -/
def updateTopic (F : FailSpec) (store : Store) (tid pid : Nat) (content : Str)
    (customData : CustomData) : List RemoteCall × Except HttpErr Store :=
  let call := RemoteCall.putPost pid
  match F call with
  | some e => ([call], .error e)
  | none =>
    let newTopics := store.topics.map
      (fun t => if t.mainPid == pid then { t with mainContent := content } else t)
    ([call], .ok { store with topics := newTopics })

/-- Model of `createReply(replyData)` from `src/lib/nodebb.js`
lines 150-161. -/
def createReply (F : FailSpec) (store : Store) (tid : Nat) (content : Str) :
    List RemoteCall × Except HttpErr Store :=
  let call := RemoteCall.postReply tid
  match F call with
  | some e => ([call], .error e)
  | none =>
    ([call], .ok { store with
      nextPid := store.nextPid + 1,
      replies := store.replies ++ [⟨store.nextPid, tid, content⟩] })

/-- A source file handed to the importer by the file-listing
collaborator. -/
structure UmberFile where
  filePath : Str
  content : Str
deriving DecidableEq

/-- One table-of-contents entry accumulated by the import loop. -/
structure TocEntry where
  filePath : Str
  title : Str
  tid : Nat
  slug : Str
deriving DecidableEq

/-- The `if (topicDataForToc.tid)` guard of `src/umber.js` line 100:
the entry is kept only when a topic id was assigned and is truthy. -/
def mkTocEntry (filePath title : Str) (tid : Nat) (slug : Str) : Option TocEntry :=
  if tid = 0 then none else some ⟨filePath, title, tid, slug⟩

/-- The fenced-code language from the file extension
(`path.extname(fileName).replace('.','') || 'text'`). -/
def codeFenceLang (fileName : Str) : Str :=
  let e := jsReplaceFirst '.' [] (posixExtname fileName)
  if e = [] then str "text" else e

/-- The fenced-code post body built by the import action
(`src/umber.js` lines 72 and 88). -/
def codeFence (fileName content : Str) : Str :=
  str "```" ++ codeFenceLang fileName ++ str "\n" ++ content ++ str "\n```"

/-- The fingerprint computed by the import action of `src/umber.js`
line 48: the hash of the raw content string, with no line-ending
normalization. -/
def umberFileHash (contentStr : Str) : Str := calculateHash contentStr

/-- The line-ending normalization performed by the import action of
`src/unnamed/part_003` line 58 (`contentStr.replace(/\r\n/g, '\n')`). -/
def eolNormalize (contentStr : Str) : Str :=
  jsReplaceAll (str "\r\n") (str "\n") contentStr

/-- The fingerprint computed by the import action of
`src/unnamed/part_003` lines 56-59: all `"\r\n"` sequences are replaced
by `"\n"` before hashing. -/
def part003FileHash (contentStr : Str) : Str :=
  calculateHash (eolNormalize contentStr)

/-- Per-file body of the import loop of `src/umber.js` lines 43-102:
normalize the path, fingerprint the raw content, resolve the parent
category from the containing directory, look the topic up by
(filename tag, parent category), then update when the stored hash
differs, skip when it matches, and create (untagged by chunks, this
variant does not chunk) when absent.  Returns the issued calls, and on
success the new store plus the optional ToC entry. -/
def importFileStep (F : FailSpec) (store : Store) (file : UmberFile)
    (repoUrl : Str) (importerUid : Nat) :
    List RemoteCall × Except HttpErr (Store × Option TocEntry) :=
  let normalizedFilePath := posixNormalize file.filePath
  let contentStr := file.content
  let hash := umberFileHash contentStr
  let fileName := posixBasename normalizedFilePath
  let directoryPath := posixDirname normalizedFilePath
  let r1 := findOrCreateCategoryByPath F store directoryPath none
  match r1.2 with
  | .error e => (r1.1, .error e)
  | .ok (store1, parentCid) =>
    let filenameTag := createFilenameTag fileName
    let r2 := findTopicByMetadata F store1 filenameTag parentCid
    match r2.2 with
    | .error e => (r1.1 ++ r2.1, .error e)
    | .ok (some t) =>
      if t.customData.contentHash ≠ hash then
        let r3 := updateTopic F store1 t.tid t.mainPid
          (codeFence fileName contentStr)
          { t.customData with contentHash := hash }
        match r3.2 with
        | .error e => (r1.1 ++ r2.1 ++ r3.1, .error e)
        | .ok store2 =>
          (r1.1 ++ r2.1 ++ r3.1,
           .ok (store2, mkTocEntry normalizedFilePath fileName t.tid t.slug))
      else
        (r1.1 ++ r2.1,
         .ok (store1, mkTocEntry normalizedFilePath fileName t.tid t.slug))
    | .ok none =>
      let pathTags := (directoryPath.splitOn '/').filter (fun p => p ≠ str ".")
      let allTags := pathTags ++ [filenameTag]
      let r3 := createTopic F store1 {
        cid := parentCid, title := fileName,
        content := codeFence fileName contentStr, uid := importerUid,
        tags := allTags,
        customData := { source := str "github", repoUrl := repoUrl,
                        filePath := normalizedFilePath, contentHash := hash } }
      match r3.2 with
      | .error e => (r1.1 ++ r2.1 ++ r3.1, .error e)
      | .ok (store2, t) =>
        (r1.1 ++ r2.1 ++ r3.1,
         .ok (store2, mkTocEntry normalizedFilePath fileName t.tid t.slug))

/-- The `for (const file of files)` loop of the import action of
`src/umber.js` (lines 43-103, inside the top-level `try`): files are
processed strictly in order; a thrown error reaches the surrounding
`catch`, which terminates the pass, so no later file is touched.  The
log tags every issued call with the path of the file being processed. -/
def processFiles (F : FailSpec) (repoUrl : Str) (importerUid : Nat) :
    Store → List TocEntry → List UmberFile →
    List (Str × RemoteCall) × Except HttpErr (Store × List TocEntry)
  | store, acc, [] => ([], .ok (store, acc))
  | store, acc, file :: files =>
    let r := importFileStep F store file repoUrl importerUid
    let tagged := r.1.map (fun c => (file.filePath, c))
    match r.2 with
    | .error e => (tagged, .error e)
    | .ok (store1, entry) =>
      let rest := processFiles F repoUrl importerUid store1
        (acc ++ entry.toList) files
      (tagged ++ rest.1, rest.2)

/-- The module-level `categoryCache` of `src/unnamed/part_007` line 7,
threaded explicitly: an insertion-ordered map from string keys to
category ids. -/
abbrev CatCache := List (Str × Nat)

/-- Model of `Map.prototype.get` composed with `has`. -/
def cacheGet (cache : CatCache) (k : Str) : Option Nat :=
  (cache.find? (fun p => p.1 == k)).map (·.2)

/-- Model of `Map.prototype.set` (overwrite or append). -/
def cacheSet (cache : CatCache) (k : Str) (v : Nat) : CatCache :=
  if (cache.find? (fun p => p.1 == k)).isSome then
    cache.map (fun p => if p.1 == k then (k, v) else p)
  else cache ++ [(k, v)]

/-- The per-segment cache key of `src/unnamed/part_007` line 55:
`` parentCid ? `${parentCid}:${part}` : part `` (a falsy parent id,
`null` or `0`, keys by the bare segment). -/
def p7CacheKey (parentCid : Option Nat) (part : Str) : Str :=
  match jsFalsyToNull parentCid with
  | none => part
  | some n => natToStr n ++ str ":" ++ part

/-- Segment loop of the cached `findOrCreateCategoryByPath` of
`src/unnamed/part_007` lines 54-78: a cache hit on the
`(parentCid, part)` key descends without any remote call; a miss lists
the children of the current parent (`GET /categories` with a
`parentCid` parameter), matches by case-insensitive name, creates the
category when absent, and records the result in the cache. -/
def p7ResolveSegs (F : FailSpec) :
    Store → CatCache → Option Nat → List Str →
    List RemoteCall × Except HttpErr (Store × CatCache × Option Nat)
  | store, cache, parentCid, [] => ([], .ok (store, cache, parentCid))
  | store, cache, parentCid, part :: rest =>
    match cacheGet cache (p7CacheKey parentCid part) with
    | some cid => p7ResolveSegs F store cache (some cid) rest
    | none =>
      let g := RemoteCall.getCategories part parentCid
      match F g with
      | some e => ([g], .error e)
      | none =>
        match (store.categories.filter
            (fun c => jsFalsyToNull c.parentCid == parentCid)).find?
            (fun c => ciEq c.name part) with
        | some c =>
          let cache1 := cacheSet cache (p7CacheKey parentCid part) c.cid
          let r := p7ResolveSegs F store cache1 (some c.cid) rest
          (g :: r.1, r.2)
        | none =>
          let pc := RemoteCall.postCategory part parentCid
          match F pc with
          | some e => ([g, pc], .error e)
          | none =>
            let newCid := store.nextCid
            let store2 := { store with
              nextCid := newCid + 1,
              categories := store.categories ++ [⟨newCid, part, parentCid⟩] }
            let cache1 := cacheSet cache (p7CacheKey parentCid part) newCid
            let r := p7ResolveSegs F store2 cache1 (some newCid) rest
            (g :: pc :: r.1, r.2)

/-- Model of the cached `findOrCreateCategoryByPath(categoryPath)` of
`src/unnamed/part_007` lines 42-82: `"."`/empty means the root
(`cid: null`); a full-path cache hit returns immediately; otherwise the
normalized path is resolved segment by segment and the full path is
cached at the end. -/
def p7FindOrCreateCategoryByPath (F : FailSpec) (store : Store) (cache : CatCache)
    (categoryPath : Str) :
    List RemoteCall × Except HttpErr (Store × CatCache × Option Nat) :=
  if categoryPath = str "." ∨ categoryPath = [] then ([], .ok (store, cache, none))
  else
    match cacheGet cache categoryPath with
    | some cid => ([], .ok (store, cache, some cid))
    | none =>
      let parts := (posixNormalize categoryPath).splitOn '/'
      let r := p7ResolveSegs F store cache none parts
      match r.2 with
      | .error e => (r.1, .error e)
      | .ok (store1, cache1, parentCid) =>
        match parentCid with
        | some n => (r.1, .ok (store1, cacheSet cache1 categoryPath n, some n))
        | none => (r.1, .ok (store1, cache1, none))

/-- Model of `findTopicByMetadata(encodedPath)` from
`src/unnamed/part_007` lines 102-136: looks the tag up via
`GET /tag/:tag`, takes the first topic, and fetches its details; a 404
means not-found, any other failure is rethrown (lines 127-135). -/
def p7FindTopicByMetadata (F : FailSpec) (store : Store) (encodedPath : Str) :
    List RemoteCall × Except HttpErr (Option RTopic) :=
  let c1 := RemoteCall.getTagTopics encodedPath
  match F c1 with
  | some e => ([c1], if e.is404 then .ok none else .error e)
  | none =>
    match store.topics.find? (fun t => t.tags.any (fun tg => tg == encodedPath)) with
    | none => ([c1], .ok none)
    | some t =>
      let c2 := RemoteCall.getTopicDetails t.tid
      match F c2 with
      | some e => ([c1, c2], if e.is404 then .ok none else .error e)
      | none => ([c1, c2], .ok (some t))

/-- Model of `findTopicByMetadata(encodedPath)` from
`src/unnamed/part_008` lines 90-116: same lookup as the part_007
iteration, except that the catch block returns `null` for EVERY failure
(line 114, `return null to indicate not found on other errors`), so a
transport error is swallowed instead of rethrown. -/
def p8FindTopicByMetadata (F : FailSpec) (store : Store) (encodedPath : Str) :
    List RemoteCall × Except HttpErr (Option RTopic) :=
  let c1 := RemoteCall.getSearchTag encodedPath
  match F c1 with
  | some _ => ([c1], .ok none)
  | none =>
    match store.topics.find? (fun t => t.tags.any (fun tg => tg == encodedPath)) with
    | none => ([c1], .ok none)
    | some t =>
      let c2 := RemoteCall.getTopicDetails t.tid
      match F c2 with
      | some _ => ([c1, c2], .ok none)
      | none => ([c1, c2], .ok (some t))

/-- Model of the two-step `updateTopic(tid, pid, topicData)` of
`src/unnamed/part_007` lines 161-176: `PUT /posts/:pid` writes the main
post content, then `PUT /topics/:tid` writes the custom metadata, so the
stored hash is refreshed together with the content. -/
def p7UpdateTopic (F : FailSpec) (store : Store) (tid pid : Nat) (content : Str)
    (customData : CustomData) : List RemoteCall × Except HttpErr Store :=
  let c1 := RemoteCall.putPost pid
  match F c1 with
  | some e => ([c1], .error e)
  | none =>
    let contentTopics := store.topics.map
      (fun t => if t.mainPid == pid then { t with mainContent := content } else t)
    let c2 := RemoteCall.putTopic tid
    match F c2 with
    | some e => ([c1, c2], .error e)
    | none =>
      let newTopics := contentTopics.map
        (fun t => if t.tid == tid then { t with customData := customData } else t)
      ([c1, c2], .ok { store with topics := newTopics })

/-- Fenced-code body with an explicit language token. -/
def codeFenceWith (lang content : Str) : Str :=
  str "```" ++ lang ++ str "\n" ++ content ++ str "\n```"

/-- The chunk-reply loop of `src/unnamed/part_001` lines 93-97: each
overflow chunk is posted as a reply prefixed with a continuation marker
(the fixed inter-reply delay has no effect on the store and is not a
remote forum call). -/
def p1PostReplies (F : FailSpec) (lang : Str) (importerUid : Nat) :
    Store → Nat → Nat → List Str → List RemoteCall × Except HttpErr Store
  | store, _, _, [] => ([], .ok store)
  | store, tid, i, chunk :: rest =>
    let content := str "*(Continued from post " ++ natToStr i ++ str ")*\n\n" ++
      codeFenceWith lang chunk
    let r := createReply F store tid content
    match r.2 with
    | .error e => (r.1, .error e)
    | .ok store1 =>
      let rr := p1PostReplies F lang importerUid store1 tid (i + 1) rest
      (r.1 ++ rr.1, rr.2)

/-- Per-file body of the import loop of `src/unnamed/part_001`
lines 43-103, composed with the `src/unnamed/part_008` nodebb iteration
cited by claim C8 (encoded-path tag lookup, cached category resolver,
two-step update): look the topic up by its encoded-path tag; when found,
skip chunked topics and oversized updates, update otherwise; when
absent, resolve the directory category, chunk the content and create the
topic plus continuation replies. -/
def p1ImportFileStepP8 (F : FailSpec) (store : Store) (cache : CatCache)
    (file : UmberFile) (repoUrl : Str) (importerUid : Nat) :
    List RemoteCall × Except HttpErr (Store × CatCache × Option TocEntry) :=
  let normalizedFilePath := posixNormalize file.filePath
  let contentStr := file.content
  let hash := calculateHash contentStr
  let encodedPath := encodePath normalizedFilePath
  let extNoDot := jsReplaceFirst '.' [] (posixExtname normalizedFilePath)
  let lang := if extNoDot = [] then str "text" else extNoDot
  let fileName := posixBasename normalizedFilePath
  let r1 := p8FindTopicByMetadata F store encodedPath
  match r1.2 with
  | .error e => (r1.1, .error e)
  | .ok (some t) =>
    let entry := mkTocEntry normalizedFilePath fileName t.tid t.slug
    if t.customData.isChunked then (r1.1, .ok (store, cache, entry))
    else if t.customData.contentHash ≠ hash then
      if 32768 < contentStr.length then (r1.1, .ok (store, cache, entry))
      else
        let r2 := p7UpdateTopic F store t.tid t.mainPid
          (codeFenceWith lang contentStr) { t.customData with contentHash := hash }
        match r2.2 with
        | .error e => (r1.1 ++ r2.1, .error e)
        | .ok store1 => (r1.1 ++ r2.1, .ok (store1, cache, entry))
    else (r1.1, .ok (store, cache, entry))
  | .ok none =>
    let r2 := p7FindOrCreateCategoryByPath F store cache
      (posixDirname normalizedFilePath)
    match r2.2 with
    | .error e => (r1.1 ++ r2.1, .error e)
    | .ok (store1, cache1, cid) =>
      let chunks := chunkText contentStr 32768
      let mainPostContent := codeFenceWith lang (chunks.headD [])
      let r3 := createTopic F store1 {
        cid := cid, title := fileName, content := mainPostContent,
        uid := importerUid,
        tags := [encodedPath, extNoDot].filter (fun s => s ≠ []),
        customData := { source := str "github", repoUrl := repoUrl,
                        filePath := normalizedFilePath, contentHash := hash,
                        isChunked := decide (1 < chunks.length),
                        chunkCount := chunks.length } }
      match r3.2 with
      | .error e => (r1.1 ++ r2.1 ++ r3.1, .error e)
      | .ok (store2, t) =>
        let r4 := p1PostReplies F lang importerUid store2 t.tid 1 (chunks.drop 1)
        match r4.2 with
        | .error e => (r1.1 ++ r2.1 ++ r3.1 ++ r4.1, .error e)
        | .ok store3 =>
          (r1.1 ++ r2.1 ++ r3.1 ++ r4.1,
           .ok (store3, cache1, mkTocEntry normalizedFilePath fileName t.tid t.slug))

/-- The file loop of the `src/unnamed/part_001` import action around
`p1ImportFileStepP8`, with the same fail-fast `try`/`catch` shape as
`processFiles`; calls are tagged with the path of the file being
processed. -/
def p1ProcessFilesP8 (F : FailSpec) (repoUrl : Str) (importerUid : Nat) :
    Store → CatCache → List UmberFile →
    List (Str × RemoteCall) × Except HttpErr (Store × CatCache)
  | store, cache, [] => ([], .ok (store, cache))
  | store, cache, file :: files =>
    let r := p1ImportFileStepP8 F store cache file repoUrl importerUid
    let tagged := r.1.map (fun c => (file.filePath, c))
    match r.2 with
    | .error e => (tagged, .error e)
    | .ok (store1, cache1, _) =>
      let rest := p1ProcessFilesP8 F repoUrl importerUid store1 cache1 files
      (tagged ++ rest.1, rest.2)

/-- Stable insertion into a stably sorted list: the new element, which
originated to the LEFT of the list, passes an element only when that
element strictly precedes it. -/
def stableInsert (lt : α → α → Bool) (x : α) : List α → List α
  | [] => [x]
  | y :: ys => if lt y x then y :: stableInsert lt x ys else x :: y :: ys

/-- Model of `Array.prototype.sort(comparator)`: the stable sort of the
array by the comparator sign (ECMAScript requires sort stability; for a
consistent comparator the stable sorted order is unique, so stable
insertion sort renders it faithfully). -/
def stableSortBy (lt : α → α → Bool) : List α → List α
  | [] => []
  | x :: xs => stableInsert lt x (stableSortBy lt xs)

/-- The configuration fields consumed by the index builders. -/
structure TocConfig where
  nodebb_url : Str
  toc_header_content : Str
deriving DecidableEq

/-- The entry order used by both index builders
(`(a, b) => a.filePath.localeCompare(b.filePath)`); the locale-dependent
`String.prototype.localeCompare` is a parameter of the model. -/
def tocSort (localeCompare : Str → Str → Int) (entries : List TocEntry) :
    List TocEntry :=
  stableSortBy (fun a b => localeCompare a.filePath b.filePath < 0) entries

/-- The fixed index header of both index builders
(`src/lib/utils.js` line 99). -/
def tocHeader (config : TocConfig) : Str :=
  config.toc_header_content ++ str "\n\n---\n\n"

/-- One index bullet of `src/lib/utils.js` line 106: the link target is
`nodebb_url`, then `/topic/`, then the topic id, then `/`, then the
slug. -/
def tocBullet (config : TocConfig) (e : TocEntry) : Str :=
  str "* [" ++ e.title ++ str "](" ++ config.nodebb_url ++ str "/topic/" ++
    natToStr e.tid ++ str "/" ++ e.slug ++ str ")\n"

/-- One index bullet of the `src/unnamed/part_005` iteration (line 39):
the link target omits the topic id (`/topic/`, then the slug). -/
def p5TocBullet (config : TocConfig) (e : TocEntry) : Str :=
  str "* [" ++ e.title ++ str "](" ++ config.nodebb_url ++ str "/topic/" ++
    e.slug ++ str ")\n"

/-- Model of `generateTocMarkdown(tocEntries, config)` from
`src/lib/utils.js` lines 95-110.  `Array.prototype.sort` sorts the
caller's array in place, so the model returns both the markdown and the
content of the caller's array after the call. -/
def generateTocMarkdown (localeCompare : Str → Str → Int)
    (tocEntries : List TocEntry) (config : TocConfig) : Str × List TocEntry :=
  let sortedEntries := tocSort localeCompare tocEntries
  (tocHeader config ++ (sortedEntries.map (tocBullet config)).flatten,
   sortedEntries)

/-- Model of `generateTocMarkdown(tocEntries, config)` from
`src/unnamed/part_005` lines 31-43 (the slug-only bullet variant), with
the same in-place-sort convention. -/
def p5GenerateTocMarkdown (localeCompare : Str → Str → Int)
    (tocEntries : List TocEntry) (config : TocConfig) : Str × List TocEntry :=
  let sortedEntries := tocSort localeCompare tocEntries
  (tocHeader config ++ (sortedEntries.map (p5TocBullet config)).flatten,
   sortedEntries)

/-- Modelled from the spec and claim C9 wording: the index document
lists exactly the accumulated entries, sorted by original relative file
path, as a fixed header from configuration followed by one bullet per
entry whose link target is the entry's topic id followed by its slug. -/
def claimIndexMarkdown (localeCompare : Str → Str → Int)
    (entries : List TocEntry) (config : TocConfig) : Str :=
  tocHeader config ++ ((tocSort localeCompare entries).map (tocBullet config)).flatten

/-- A concrete code-unit-wise comparator, standing in for
`String.prototype.localeCompare` in a fixed locale on ASCII paths; used
to instantiate comparator-parametric theorems. -/
def lexCompare : Str → Str → Int
  | [], [] => 0
  | [], _ :: _ => -1
  | _ :: _, [] => 1
  | a :: as, b :: bs =>
    if a.toNat < b.toNat then -1
    else if b.toNat < a.toNat then 1
    else lexCompare as bs

/-- All characters of `w` are whitespace. -/
def allWs (w : Str) : Prop := ∀ c ∈ w, isWsChar c = true

/-- The text `s` is an interleaving of the given pieces with (possibly
empty) whitespace runs before, between and after them: this renders
"concatenating the chunks, ignoring the whitespace trimmed at chunk
boundaries, reproduces the text". -/
inductive WsInterleaving : Str → List Str → Prop
  | nil (w : Str) : allWs w → WsInterleaving w []
  | cons (w c rest : Str) (cs : List Str) :
      allWs w → WsInterleaving rest cs → WsInterleaving (w ++ c ++ rest) (c :: cs)

/-- Substring occurrence test (used to state sentinel-freedom). -/
def containsSub (s pat : Str) : Bool :=
  (List.range (s.length + 1)).any (fun i => matchesAt s pat i)

/-- No `'.'` of `s` is immediately followed by another `'.'` or by a
`'/'` (the adjacency that makes consecutive codec images overlap). -/
def dotSeparated : Str → Bool
  | [] => true
  | [_] => true
  | c1 :: c2 :: rest =>
    (if c1 = '.' then !(c2 = '.' || c2 = '/') else true) && dotSeparated (c2 :: rest)

/-- The per-character image of the `encodePath` replacements
(`'/'` to `"__"`, `'.'` to `"_dot_"`). -/
def encodeCharIm (c : Char) : Str :=
  if c = '/' then str "__" else if c = '.' then str "_dot_" else [c]

/-- The per-character image after the first `decodePath` pass has mapped
the slash images back (`'/'` restored, `'.'` still encoded). -/
def decodeMidIm (c : Char) : Str :=
  if c = '/' then ['/'] else if c = '.' then str "_dot_" else [c]

/-- Bounded optional id (true for `none`). -/
def optLT (o : Option Nat) (n : Nat) : Bool :=
  match o with
  | some p => p < n
  | none => true

/-- Well-formedness of a remote store: every allocated category id,
category parent id and topic category id is below the fresh-id
counter. -/
def WFStore (s : Store) : Prop :=
  (∀ cat ∈ s.categories, cat.cid < s.nextCid ∧ optLT cat.parentCid s.nextCid = true) ∧
  (∀ t ∈ s.topics, optLT t.cid s.nextCid = true)

/-- The category-resolution calls attributable to one path segment:
the listing issued while resolving it and the creation of a category
with its name. -/
def callsForSegment (seg : Str) (calls : List RemoteCall) : List RemoteCall :=
  calls.filter (fun c =>
    match c with
    | .getCategories s _ => s == seg
    | .postCategory s _ => s == seg
    | _ => false)

/-- Concrete remote store fixture: one category `docs` (cid 1) holding
one imported topic for `docs/a.txt` whose stored fingerprint matches the
content `"hello"`. -/
def fixtureStore : Store :=
  { nextCid := 2, nextTid := 2, nextPid := 2,
    categories := [⟨1, str "docs", none⟩],
    topics := [{ tid := 1, cid := some 1, mainPid := 1, title := str "a.txt",
                 slug := str "a-txt", tags := [str "docs", str "a-txt"],
                 mainContent := str "old",
                 customData := { contentHash := calculateHash (str "hello") } }],
    replies := [] }

/-- The topic record held by `fixtureStore`. -/
def fixtureTopic : RTopic :=
  { tid := 1, cid := some 1, mainPid := 1, title := str "a.txt",
    slug := str "a-txt", tags := [str "docs", str "a-txt"],
    mainContent := str "old",
    customData := { contentHash := calculateHash (str "hello") } }

/-- Like `fixtureStore`, but the stored fingerprint is the stale value
`"stale"`, so re-importing `"hello"` takes the update branch. -/
def staleStore : Store :=
  { nextCid := 2, nextTid := 2, nextPid := 2,
    categories := [⟨1, str "docs", none⟩],
    topics := [{ tid := 1, cid := some 1, mainPid := 1, title := str "a.txt",
                 slug := str "a-txt", tags := [str "docs", str "a-txt"],
                 mainContent := str "old",
                 customData := { contentHash := str "stale" } }],
    replies := [] }

/-- The store component of a per-file import result (the original store
when the step failed). -/
def stepStore (r : List RemoteCall × Except HttpErr (Store × Option TocEntry))
    (dflt : Store) : Store :=
  match r.2 with
  | .ok p => p.1
  | .error _ => dflt

/-- Failure model injecting a 500 status on the part_008 tag-search
request for the encoded path of `a.txt`, and nothing else. -/
def failLookupA : FailSpec := fun c =>
  if c = RemoteCall.getSearchTag (encodePath (str "a.txt")) then
    some (HttpErr.status 500)
  else none

/-- Index-entry fixture (alphabetically first). -/
def entryA : TocEntry := ⟨str "a.txt", str "a.txt", 1, str "a-txt"⟩

/-- Index-entry fixture (alphabetically second). -/
def entryB : TocEntry := ⟨str "b.txt", str "b.txt", 2, str "b-txt"⟩

/-- Index-entry fixture matching the example of the source comment
(`src/lib/utils.js` line 105). -/
def entryT : TocEntry :=
  ⟨str "adomgb-ascii.txt", str "adomgb-ascii.txt", 9765, str "adomgb-ascii-txt"⟩

/-- Index configuration fixture. -/
def cfgFixture : TocConfig := ⟨str "https://forum", str "Header"⟩

/-- The store component of an update/create result (the original store
when the call failed). -/
def updStore (r : List RemoteCall × Except HttpErr Store) (dflt : Store) : Store :=
  match r.2 with
  | .ok s => s
  | .error _ => dflt

/-- The empty remote store. -/
def emptyStore : Store := {}

/-- Failure model injecting a network error on the category listing
issued while resolving the segment `docs` at the root, and nothing
else. -/
def failCatF : FailSpec := fun c =>
  if c = RemoteCall.getCategories (str "docs") none then some HttpErr.network
  else none

end Umber


namespace Umber

/-- Dropping a prefix by a predicate never lengthens a list. -/
theorem length_dropWhile_le (p : Char → Bool) (l : Str) :
    (l.dropWhile p).length ≤ l.length := by
  have h := congrArg List.length (@List.takeWhile_append_dropWhile _ p l)
  simp only [List.length_append] at h
  omega

/-- Trimming never lengthens. -/
theorem jsTrim_length_le (s : Str) : (jsTrim s).length ≤ s.length := by
  unfold jsTrim
  calc ((s.dropWhile isWsChar).reverse.dropWhile isWsChar).reverse.length
      = ((s.dropWhile isWsChar).reverse.dropWhile isWsChar).length :=
        List.length_reverse _
    _ ≤ (s.dropWhile isWsChar).reverse.length := length_dropWhile_le _ _
    _ = (s.dropWhile isWsChar).length := List.length_reverse _
    _ ≤ s.length := length_dropWhile_le _ _

/-- Trim decomposition: every string is a whitespace run, its trim, and
a whitespace run. -/
theorem jsTrim_decompose (s : Str) :
    ∃ w1 w2, allWs w1 ∧ allWs w2 ∧ s = w1 ++ jsTrim s ++ w2 := by
  refine ⟨s.takeWhile isWsChar,
    ((s.dropWhile isWsChar).reverse.takeWhile isWsChar).reverse, ?_, ?_, ?_⟩
  · intro c hc
    exact List.mem_takeWhile_imp hc
  · intro c hc
    rw [List.mem_reverse] at hc
    exact List.mem_takeWhile_imp hc
  · unfold jsTrim
    conv_lhs => rw [← @List.takeWhile_append_dropWhile _ isWsChar s]
    rw [List.append_assoc]
    congr 1
    have h := @List.takeWhile_append_dropWhile _ isWsChar
      (s.dropWhile isWsChar).reverse
    have h2 := congrArg List.reverse h
    rw [List.reverse_append, List.reverse_reverse] at h2
    exact h2.symm

/-- Bound extracted from the `lastIndexOf` model: a found index never
exceeds the `fromIndex` argument. -/
theorem jsLastIndexOf_le {s pat : Str} {f i : Nat}
    (h : jsLastIndexOf s pat f = some i) : i ≤ f := by
  unfold jsLastIndexOf at h
  have hmem : i ∈ ((List.range (f + 1)).filter (fun j => matchesAt s pat j)) := by
    have : i ∈ ((List.range (f + 1)).filter (fun j => matchesAt s pat j)).getLast? := by
      rw [h]; rfl
    obtain ⟨hne, heq⟩ := List.mem_getLast?_eq_getLast this
    subst heq
    exact List.getLast_mem hne
  have := List.mem_range.mp (List.mem_of_mem_filter hmem)
  omega

/-- The chosen cut index never exceeds `maxLength + 1` (it exceeds
`maxLength` exactly when a sentence boundary starts at `maxLength`). -/
theorem chunkSliceIndex_le (m : Nat) (r : Str) : chunkSliceIndex m r ≤ m + 1 := by
  unfold chunkSliceIndex
  cases h1 : jsLastIndexOf r (str "\n") m with
  | some i =>
    have hi := jsLastIndexOf_le h1
    cases h2 : jsLastIndexOf r (str ". ") m with
    | some j =>
      have hj := jsLastIndexOf_le h2
      cases h3 : jsLastIndexOf r (str " ") m with
      | some k =>
        have hk := jsLastIndexOf_le h3
        simp only []
        first | (split_ifs <;> omega) | omega
      | none => simp only []; first | (split_ifs <;> omega) | omega
    | none =>
      cases h3 : jsLastIndexOf r (str " ") m with
      | some k =>
        have hk := jsLastIndexOf_le h3
        simp only []
        first | (split_ifs <;> omega) | omega
      | none => simp only []; first | (split_ifs <;> omega) | omega
  | none =>
    cases h2 : jsLastIndexOf r (str ". ") m with
    | some j =>
      have hj := jsLastIndexOf_le h2
      cases h3 : jsLastIndexOf r (str " ") m with
      | some k =>
        have hk := jsLastIndexOf_le h3
        simp only []
        first | (split_ifs <;> omega) | omega
      | none => simp only []; first | (split_ifs <;> omega) | omega
    | none =>
      cases h3 : jsLastIndexOf r (str " ") m with
      | some k =>
        have hk := jsLastIndexOf_le h3
        simp only []
        first | (split_ifs <;> omega) | omega
      | none => simp only []; first | (split_ifs <;> omega) | omega

/-- For a positive ceiling, the chosen cut index is positive (this is
the progress guarantee of the loop). -/
theorem chunkSliceIndex_pos (m : Nat) (r : Str) (hm : 1 ≤ m) :
    1 ≤ chunkSliceIndex m r := by
  unfold chunkSliceIndex
  cases h1 : jsLastIndexOf r (str "\n") m with
  | some i =>
    cases h2 : jsLastIndexOf r (str ". ") m with
    | some j =>
      cases h3 : jsLastIndexOf r (str " ") m with
      | some k => simp only []; first | (split_ifs <;> omega) | omega
      | none => simp only []; first | (split_ifs <;> omega) | omega
    | none =>
      cases h3 : jsLastIndexOf r (str " ") m with
      | some k => simp only []; first | (split_ifs <;> omega) | omega
      | none => simp only []; first | (split_ifs <;> omega) | omega
  | none =>
    cases h2 : jsLastIndexOf r (str ". ") m with
    | some j =>
      cases h3 : jsLastIndexOf r (str " ") m with
      | some k => simp only []; first | (split_ifs <;> omega) | omega
      | none => simp only []; first | (split_ifs <;> omega) | omega
    | none =>
      cases h3 : jsLastIndexOf r (str " ") m with
      | some k => simp only []; first | (split_ifs <;> omega) | omega
      | none => simp only []; first | (split_ifs <;> omega) | omega

/-- Each pushed chunk has length at most `maxLength + 1`. -/
theorem chunkStep_chunk_le (m : Nat) (r : Str) :
    (chunkStep m r).1.length ≤ m + 1 := by
  unfold chunkStep
  calc (jsTrim (r.take (chunkSliceIndex m r))).length
      ≤ (r.take (chunkSliceIndex m r)).length := jsTrim_length_le _
    _ ≤ chunkSliceIndex m r := by
        rw [List.length_take]; omega
    _ ≤ m + 1 := chunkSliceIndex_le m r

/-- The loop body strictly shrinks the remaining text whenever the
ceiling is positive and the remaining text is longer than it. -/
theorem chunkStep_progress (m : Nat) (r : Str) (hm : 1 ≤ m)
    (hr : m < r.length) : (chunkStep m r).2.length < r.length := by
  unfold chunkStep
  have h1 : (jsTrim (r.drop (chunkSliceIndex m r))).length ≤
      (r.drop (chunkSliceIndex m r)).length := jsTrim_length_le _
  have h2 := List.length_drop (chunkSliceIndex m r) r
  have h3 := chunkSliceIndex_pos m r hm
  simp only []
  omega

end Umber

namespace Umber

/-- Every chunk the loop produces has length at most `maxLength + 1`. -/
theorem chunkGo_length_le (m : Nat) :
    ∀ fuel r, ∀ c ∈ chunkGo m fuel r, c.length ≤ m + 1 := by
  intro fuel
  induction fuel with
  | zero => intro r c hc; cases hc
  | succ fuel ih =>
    intro r c hc
    unfold chunkGo at hc
    split at hc
    · cases hc
    · split at hc
      · rw [List.mem_singleton] at hc
        subst hc
        omega
      · rcases List.mem_cons.mp hc with h | h
        · subst h
          exact chunkStep_chunk_le m r
        · exact ih _ _ h

/-- `allWs` is preserved by append. -/
theorem allWs_append {w1 w2 : Str} (h1 : allWs w1) (h2 : allWs w2) :
    allWs (w1 ++ w2) := by
  intro c hc
  rcases List.mem_append.mp hc with h | h
  · exact h1 c h
  · exact h2 c h

/-- A trailing whitespace run can be absorbed into an interleaving. -/
theorem wsInterleaving_append_ws {s : Str} {cs : List Str}
    (h : WsInterleaving s cs) {w : Str} (hw : allWs w) :
    WsInterleaving (s ++ w) cs := by
  induction h with
  | nil w2 hw2 => exact .nil _ (allWs_append hw2 hw)
  | cons w2 c rest cs hw2 _ ih =>
    rw [List.append_assoc (w2 ++ c) rest w]
    exact .cons w2 c (rest ++ w) cs hw2 ih

/-- A leading whitespace run can be absorbed into an interleaving. -/
theorem wsInterleaving_prepend_ws {s : Str} {cs : List Str}
    (h : WsInterleaving s cs) {w : Str} (hw : allWs w) :
    WsInterleaving (w ++ s) cs := by
  cases h with
  | nil w2 hw2 => exact .nil _ (allWs_append hw hw2)
  | cons w2 c rest cs hw2 hr =>
    rw [← List.append_assoc w (w2 ++ c) rest, ← List.append_assoc w w2 c]
    exact .cons (w ++ w2) c rest cs (allWs_append hw hw2) hr

/-- With enough fuel (the length always suffices) the loop output is a
whitespace interleaving of the remaining text. -/
theorem chunkGo_interleaving (m : Nat) (hm : 1 ≤ m) :
    ∀ fuel r, r.length ≤ fuel → WsInterleaving r (chunkGo m fuel r) := by
  intro fuel
  induction fuel with
  | zero =>
    intro r hr
    have : r = [] := List.eq_nil_of_length_eq_zero (by omega)
    subst this
    exact .nil [] (by intro c hc; cases hc)
  | succ fuel ih =>
    intro r hr
    unfold chunkGo
    split
    · have : r = [] := List.eq_nil_of_length_eq_zero (by assumption)
      subst this
      exact .nil [] (by intro c hc; cases hc)
    · split
      · have h0 : WsInterleaving ([] ++ r ++ []) [r] :=
          .cons [] r [] [] (by intro c hc; cases hc)
            (.nil [] (by intro c hc; cases hc))
        simpa using h0
      · rename_i hne hlong
        push_neg at hlong
        obtain ⟨w1, w2, hw1, hw2, hd1⟩ := jsTrim_decompose
          (r.take (chunkSliceIndex m r))
        obtain ⟨w3, w4, hw3, hw4, hd2⟩ := jsTrim_decompose
          (r.drop (chunkSliceIndex m r))
        have hslice := chunkSliceIndex_pos m r hm
        have hrec : WsInterleaving (jsTrim (r.drop (chunkSliceIndex m r)))
            (chunkGo m fuel (jsTrim (r.drop (chunkSliceIndex m r)))) := by
          apply ih
          have h1 : (jsTrim (r.drop (chunkSliceIndex m r))).length ≤
              (r.drop (chunkSliceIndex m r)).length := jsTrim_length_le _
          have h2 := List.length_drop (chunkSliceIndex m r) r
          omega
        have hrest : WsInterleaving (w2 ++ (w3 ++ (jsTrim (r.drop (chunkSliceIndex m r)) ++ w4)))
            (chunkGo m fuel (jsTrim (r.drop (chunkSliceIndex m r)))) := by
          apply wsInterleaving_prepend_ws _ hw2
          apply wsInterleaving_prepend_ws _ hw3
          exact wsInterleaving_append_ws hrec hw4
        have hfinal := WsInterleaving.cons w1
          (jsTrim (r.take (chunkSliceIndex m r)))
          (w2 ++ (w3 ++ (jsTrim (r.drop (chunkSliceIndex m r)) ++ w4)))
          (chunkGo m fuel (jsTrim (r.drop (chunkSliceIndex m r)))) hw1 hrest
        have hsplit := List.take_append_drop (chunkSliceIndex m r) r
        rw [hd1, hd2] at hsplit
        have heq : w1 ++ jsTrim (List.take (chunkSliceIndex m r) r) ++
            (w2 ++ (w3 ++ (jsTrim (List.drop (chunkSliceIndex m r) r) ++ w4))) = r := by
          conv_rhs => rw [← hsplit]
          simp [List.append_assoc]
        rw [heq] at hfinal
        exact hfinal

/-- Enough fuel makes the loop output independent of the exact fuel
(the loop has finished before the fuel runs out). -/
theorem chunkGo_fuel (m : Nat) (hm : 1 ≤ m) :
    ∀ f1 f2 r, r.length ≤ f1 → r.length ≤ f2 →
      chunkGo m f1 r = chunkGo m f2 r := by
  intro f1
  induction f1 with
  | zero =>
    intro f2 r h1 _
    have : r = [] := List.eq_nil_of_length_eq_zero (by omega)
    subst this
    cases f2 with
    | zero => rfl
    | succ f2 => simp [chunkGo]
  | succ f1 ih =>
    intro f2 r h1 h2
    cases f2 with
    | zero =>
      have : r = [] := List.eq_nil_of_length_eq_zero (by omega)
      subst this
      simp [chunkGo]
    | succ f2 =>
      unfold chunkGo
      split
      · rfl
      · split
        · rfl
        · rename_i hne hlong
          push_neg at hlong
          have hprog := chunkStep_progress m r hm hlong
          have hb1 : (chunkStep m r).2.length ≤ f1 := by omega
          have hb2 : (chunkStep m r).2.length ≤ f2 := by omega
          show (chunkStep m r).1 :: chunkGo m f1 (chunkStep m r).2 =
            (chunkStep m r).1 :: chunkGo m f2 (chunkStep m r).2
          rw [ih f2 _ hb1 hb2]

end Umber

namespace Umber

/-- With positive fuel the loop emits at least one chunk for a nonempty
remaining text. -/
theorem chunkGo_ne_nil (m fuel : Nat) (r : Str) (hr : r.length ≠ 0)
    (hf : fuel ≠ 0) : chunkGo m fuel r ≠ [] := by
  cases fuel with
  | zero => exact absurd rfl hf
  | succ fuel =>
    unfold chunkGo
    split
    · exact absurd (by assumption) hr
    · split
      · simp
      · simp

/-- Claim C1, amended: for a positive `maxLength`, `chunkText` returns a
non-empty sequence whose elements have length at most `maxLength + 1`
(the sentence-boundary branch can cut one character past the ceiling),
the text is reproduced as a whitespace interleaving of the chunks, and a
text no longer than `maxLength` is returned unchanged as `[text]`. -/
theorem chunkText_coverage (text : Str) (maxLength : Nat) (hm : 1 ≤ maxLength) :
    chunkText text maxLength ≠ [] ∧
    (∀ c ∈ chunkText text maxLength, c.length ≤ maxLength + 1) ∧
    WsInterleaving text (chunkText text maxLength) ∧
    (text.length ≤ maxLength → chunkText text maxLength = [text]) := by
  refine ⟨?_, ?_, ?_, ?_⟩
  · unfold chunkText
    split
    · simp
    · rename_i h
      push_neg at h
      exact chunkGo_ne_nil maxLength text.length text (by omega) (by omega)
  · intro c hc
    unfold chunkText at hc
    split at hc
    · rw [List.mem_singleton] at hc
      subst hc
      omega
    · exact chunkGo_length_le maxLength text.length text c hc
  · unfold chunkText
    split
    · have h0 : WsInterleaving ([] ++ text ++ []) [text] :=
        .cons [] text [] [] (by intro c hc; cases hc)
          (.nil [] (by intro c hc; cases hc))
      simpa using h0
    · exact chunkGo_interleaving maxLength hm text.length text le_rfl
  · intro h
    unfold chunkText
    rw [if_pos h]

/-- Claim C1, counterexample to the claim as stated: with the positive
ceiling 4 and the text `"aaaa. b"` (longer than the ceiling), one
produced chunk, `"aaaa."`, has length 5 > 4, because the sentence
boundary `". "` starting exactly at index 4 makes the cut index
`maxLength + 1`. -/
theorem chunkText_coverage_cex :
    1 ≤ 4 ∧ 4 < (str "aaaa. b").length ∧
    chunkText (str "aaaa. b") 4 = [str "aaaa.", str "b"] ∧
    ∃ c ∈ chunkText (str "aaaa. b") 4, 4 < c.length := by decide

/-- Witness: the amended C1 statement evaluated at `"ab cd"` with
ceiling 3. -/
theorem chunkText_coverage_witness :
    1 ≤ 3 ∧
    (chunkText (str "ab cd") 3 ≠ [] ∧
     (∀ c ∈ chunkText (str "ab cd") 3, c.length ≤ 3 + 1) ∧
     WsInterleaving (str "ab cd") (chunkText (str "ab cd") 3) ∧
     ((str "ab cd").length ≤ 3 → chunkText (str "ab cd") 3 = [str "ab cd"])) :=
  ⟨by decide, chunkText_coverage (str "ab cd") 3 (by decide)⟩

/-- Claim C7: for a positive `maxLength` the chunking loop strictly
shrinks the remaining text on every iteration (in particular for text
with no whitespace at all and length above the ceiling), and fuel equal
to the text length already lets the loop run to completion: any larger
fuel computes the same chunk sequence. -/
theorem chunkText_termination (maxLength : Nat) (hm : 1 ≤ maxLength) :
    (∀ r : Str, maxLength < r.length →
      (chunkStep maxLength r).2.length < r.length) ∧
    (∀ text : Str, ∀ fuel, text.length ≤ fuel →
      chunkGo maxLength fuel text = chunkGo maxLength text.length text) := by
  constructor
  · intro r hr
    exact chunkStep_progress maxLength r hm hr
  · intro text fuel hf
    exact chunkGo_fuel maxLength hm fuel text.length text hf le_rfl

/-- Witness: the C7 statement evaluated at ceiling 2, with its strict
shrink checked on the whitespace-free text `"abcdef"`. -/
theorem chunkText_termination_witness :
    1 ≤ 2 ∧
    ((∀ r : Str, 2 < r.length → (chunkStep 2 r).2.length < r.length) ∧
     (∀ text : Str, ∀ fuel, text.length ≤ fuel →
       chunkGo 2 fuel text = chunkGo 2 text.length text)) ∧
    (∀ c ∈ str "abcdef", isWsChar c = false) ∧
    (chunkStep 2 (str "abcdef")).2.length < (str "abcdef").length :=
  ⟨by decide, chunkText_termination 2 (by decide), by decide,
   (chunkText_termination 2 (by decide)).1 (str "abcdef") (by decide)⟩

end Umber

namespace Umber

/-- Claim C4, counterexample to the claim as stated: the raw-content
hashing of the `src/umber.js` action means the contents `"a\r\nb"` and
`"a\nb"`, which differ only in a CRLF versus LF line ending, receive
different fingerprints. -/
theorem umber_hash_eol_cex :
    eolNormalize (str "a\r\nb") = eolNormalize (str "a\nb") ∧
    umberFileHash (str "a\r\nb") ≠ umberFileHash (str "a\nb") := by decide

/-- Claim C4, amended: the `src/unnamed/part_003` import action hashes
line-ending-normalized content, so any two contents with the same
normalized form receive the same fingerprint, and hence the same
skip/update decision against any stored hash. -/
theorem part003_hash_eol_invariant (a b : Str)
    (h : eolNormalize a = eolNormalize b) :
    part003FileHash a = part003FileHash b ∧
    ∀ storedHash : Str,
      (storedHash ≠ part003FileHash a ↔ storedHash ≠ part003FileHash b) := by
  unfold part003FileHash
  rw [h]
  exact ⟨rfl, fun _ => Iff.rfl⟩

/-- Witness: the amended C4 statement evaluated at the CRLF/LF pair. -/
theorem part003_hash_eol_invariant_witness :
    eolNormalize (str "x\r\ny") = eolNormalize (str "x\ny") ∧
    (part003FileHash (str "x\r\ny") = part003FileHash (str "x\ny") ∧
     ∀ storedHash : Str,
       (storedHash ≠ part003FileHash (str "x\r\ny") ↔
        storedHash ≠ part003FileHash (str "x\ny"))) :=
  ⟨by decide, part003_hash_eol_invariant (str "x\r\ny") (str "x\ny") (by decide)⟩

/-- Stable insertion permutes the element into the list. -/
theorem stableInsert_perm {α : Type} (lt : α → α → Bool) (x : α) :
    ∀ l : List α, (stableInsert lt x l).Perm (x :: l) := by
  intro l
  induction l with
  | nil => exact List.Perm.refl _
  | cons y ys ih =>
    unfold stableInsert
    split
    · exact (ih.cons y).trans (List.Perm.swap x y ys)
    · exact List.Perm.refl _

/-- The stable sort permutes its input. -/
theorem stableSortBy_perm {α : Type} (lt : α → α → Bool) :
    ∀ l : List α, (stableSortBy lt l).Perm l := by
  intro l
  induction l with
  | nil => exact List.Perm.refl _
  | cons x xs ih =>
    unfold stableSortBy
    exact (stableInsert_perm lt x (stableSortBy lt xs)).trans (ih.cons x)

end Umber

namespace Umber

/-- Stable insertion preserves sortedness for a consistent comparator
(asymmetric strict part, transitive non-strict part). -/
theorem stableInsert_pairwise {α : Type} {lt : α → α → Bool}
    (hasym : ∀ a b, lt a b = true → lt b a = false)
    (htrans : ∀ a b c, lt b a = false → lt c b = false → lt c a = false)
    (x : α) : ∀ l : List α, l.Pairwise (fun a b => lt b a = false) →
      (stableInsert lt x l).Pairwise (fun a b => lt b a = false) := by
  intro l
  induction l with
  | nil =>
    intro _
    exact List.pairwise_singleton _ _
  | cons y ys ih =>
    intro h
    rw [List.pairwise_cons] at h
    obtain ⟨hy, hys⟩ := h
    unfold stableInsert
    split
    · rename_i hlt
      rw [List.pairwise_cons]
      refine ⟨?_, ih hys⟩
      intro z hz
      rcases List.mem_cons.mp ((stableInsert_perm lt x ys).mem_iff.mp hz)
        with h1 | h2
      · subst h1
        exact hasym y z hlt
      · exact hy z h2
    · rename_i hnlt
      rw [List.pairwise_cons]
      refine ⟨?_, List.pairwise_cons.mpr ⟨hy, hys⟩⟩
      intro z hz
      rcases List.mem_cons.mp hz with h1 | h2
      · subst h1
        exact Bool.eq_false_iff.mpr (fun hc => hnlt (by simp [hc]))
      · exact htrans x y z
          (Bool.eq_false_iff.mpr (fun hc => hnlt (by simp [hc]))) (hy z h2)

/-- The stable sort is sorted for a consistent comparator. -/
theorem stableSortBy_pairwise {α : Type} {lt : α → α → Bool}
    (hasym : ∀ a b, lt a b = true → lt b a = false)
    (htrans : ∀ a b c, lt b a = false → lt c b = false → lt c a = false) :
    ∀ l : List α, (stableSortBy lt l).Pairwise (fun a b => lt b a = false) := by
  intro l
  induction l with
  | nil => exact List.Pairwise.nil
  | cons x xs ih =>
    unfold stableSortBy
    exact stableInsert_pairwise hasym htrans x _ ih

/-- The concrete comparator is antisymmetric under sign reversal. -/
theorem lexCompare_swap : ∀ a b : Str, lexCompare a b = - lexCompare b a := by
  intro a
  induction a with
  | nil =>
    intro b
    cases b <;> simp [lexCompare]
  | cons x as ih =>
    intro b
    cases b with
    | nil => simp [lexCompare]
    | cons y bs =>
      unfold lexCompare
      split_ifs <;> first | omega | exact ih bs

/-- Transitivity of the non-strict order induced by the concrete
comparator. -/
theorem lexCompare_le_trans :
    ∀ x y z : Str, 0 ≤ lexCompare y x → 0 ≤ lexCompare z y →
      0 ≤ lexCompare z x := by
  intro x
  induction x with
  | nil =>
    intro y z _ _
    cases z <;> simp [lexCompare]
  | cons a as ih =>
    intro y z h1 h2
    cases y with
    | nil => simp [lexCompare] at h1
    | cons b bs =>
      cases z with
      | nil => simp [lexCompare] at h2
      | cons c cs =>
        unfold lexCompare at h1 h2 ⊢
        split_ifs at h1 h2 ⊢ <;> first | omega | exact ih bs cs h1 h2

end Umber

namespace Umber

/-- Asymmetry of the concrete comparator sign. -/
theorem lexCompare_asym : ∀ x y : Str, lexCompare x y < 0 → ¬ lexCompare y x < 0 := by
  intro x y h
  rw [lexCompare_swap y x]
  omega

/-- Negative-transitivity of the concrete comparator sign. -/
theorem lexCompare_not_lt_trans :
    ∀ x y z : Str, ¬ lexCompare y x < 0 → ¬ lexCompare z y < 0 →
      ¬ lexCompare z x < 0 := by
  intro x y z h1 h2
  have := lexCompare_le_trans x y z (by omega) (by omega)
  omega

/-- Claim C9, amended: the `src/lib/utils.js` index builder renders
exactly the claimed document (header from configuration, one bullet per
entry, link target topic id then slug, entries sorted by file path): its
output equals the claim-modelled rendering, and the emitted entry order
is a permutation of the input sorted by the comparator.  The
`src/unnamed/part_005` variant violates the claim (its bullets omit the
topic id; see the counterexample). -/
theorem generateToc_renders_sorted_index (localeCompare : Str → Str → Int)
    (entries : List TocEntry) (config : TocConfig)
    (hasym : ∀ x y : Str, localeCompare x y < 0 → ¬ localeCompare y x < 0)
    (htrans : ∀ x y z : Str, ¬ localeCompare y x < 0 →
      ¬ localeCompare z y < 0 → ¬ localeCompare z x < 0) :
    (generateTocMarkdown localeCompare entries config).1 =
      claimIndexMarkdown localeCompare entries config ∧
    (tocSort localeCompare entries).Perm entries ∧
    (tocSort localeCompare entries).Pairwise
      (fun a b => ¬ localeCompare b.filePath a.filePath < 0) := by
  refine ⟨rfl, stableSortBy_perm _ entries, ?_⟩
  have h := @stableSortBy_pairwise TocEntry
    (fun a b : TocEntry => decide (localeCompare a.filePath b.filePath < 0))
    (fun a b hab => decide_eq_false_iff_not.mpr
      (hasym _ _ (of_decide_eq_true hab)))
    (fun a b c h1 h2 => decide_eq_false_iff_not.mpr
      (htrans _ _ _ (decide_eq_false_iff_not.mp h1)
        (decide_eq_false_iff_not.mp h2)))
    entries
  exact h.imp (fun hba => decide_eq_false_iff_not.mp hba)

/-- Claim C9, counterexample to the claim as stated: the
`src/unnamed/part_005` index builder does not render the claimed
document at a concrete entry, because its bullet's link target omits the
topic id. -/
theorem p5_toc_link_cex :
    (p5GenerateTocMarkdown lexCompare [entryT] cfgFixture).1 ≠
      claimIndexMarkdown lexCompare [entryT] cfgFixture := by decide

/-- Witness: the amended C9 statement evaluated at the concrete
comparator and a two-entry list. -/
theorem generateToc_renders_sorted_index_witness :
    (∀ x y : Str, lexCompare x y < 0 → ¬ lexCompare y x < 0) ∧
    ((generateTocMarkdown lexCompare [entryB, entryA] cfgFixture).1 =
       claimIndexMarkdown lexCompare [entryB, entryA] cfgFixture ∧
     (tocSort lexCompare [entryB, entryA]).Perm [entryB, entryA] ∧
     (tocSort lexCompare [entryB, entryA]).Pairwise
       (fun a b => ¬ lexCompare b.filePath a.filePath < 0)) :=
  ⟨lexCompare_asym,
   generateToc_renders_sorted_index lexCompare [entryB, entryA] cfgFixture
     lexCompare_asym lexCompare_not_lt_trans⟩

/-- Claim C10: the index builder sorts the caller's entries array in
place: after the call the caller's array holds the entries reordered by
file path (a sorted permutation of the input), and on a concrete
unsorted input the array contents genuinely change. -/
theorem generateToc_sorts_in_place (localeCompare : Str → Str → Int)
    (entries : List TocEntry) (config : TocConfig) :
    (generateTocMarkdown localeCompare entries config).2 =
      tocSort localeCompare entries ∧
    (generateTocMarkdown localeCompare entries config).2.Perm entries ∧
    (generateTocMarkdown lexCompare [entryB, entryA] cfgFixture).2 =
      [entryA, entryB] ∧
    [entryA, entryB] ≠ [entryB, entryA] := by
  refine ⟨rfl, stableSortBy_perm _ entries, by decide, by decide⟩

end Umber

namespace Umber

/-- The replacement scan is independent of the fuel once the fuel covers
the string length. -/
theorem jsReplaceAllGo_fuel (pat rep : Str) :
    ∀ f1 f2 s, s.length ≤ f1 → s.length ≤ f2 →
      jsReplaceAllGo pat rep f1 s = jsReplaceAllGo pat rep f2 s := by
  intro f1
  induction f1 with
  | zero =>
    intro f2 s h1 _
    have : s = [] := List.eq_nil_of_length_eq_zero (by omega)
    subst this
    cases f2 <;> rfl
  | succ f1 ih =>
    intro f2 s h1 h2
    cases s with
    | nil => cases f2 <;> rfl
    | cons c rest =>
      cases f2 with
      | zero => simp at h2
      | succ f2 =>
        unfold jsReplaceAllGo
        split
        · rw [ih f2 (rest.drop (pat.length - 1))
            (by have := List.length_drop (pat.length - 1) rest; simp at h1; omega)
            (by have := List.length_drop (pat.length - 1) rest; simp at h2; omega)]
        · rw [ih f2 rest (by simp at h1; omega) (by simp at h2; omega)]

/-- Unfolding: the scan at a match site. -/
theorem jsReplaceAll_cons_match {pat : Str} (rep : Str) {c : Char} {rest : Str}
    (hne : pat ≠ []) (hpre : pat.isPrefixOf (c :: rest) = true) :
    jsReplaceAll pat rep (c :: rest) =
      rep ++ jsReplaceAll pat rep (rest.drop (pat.length - 1)) := by
  show jsReplaceAllGo pat rep (c :: rest).length (c :: rest) = _
  rw [List.length_cons]
  unfold jsReplaceAllGo
  rw [if_pos ⟨hne, hpre⟩]
  congr 1
  apply jsReplaceAllGo_fuel
  · have := List.length_drop (pat.length - 1) rest
    omega
  · exact le_rfl

/-- Unfolding: the scan away from a match site. -/
theorem jsReplaceAll_cons_nomatch {pat : Str} (rep : Str) {c : Char} {rest : Str}
    (h : ¬(pat ≠ [] ∧ pat.isPrefixOf (c :: rest) = true)) :
    jsReplaceAll pat rep (c :: rest) = c :: jsReplaceAll pat rep rest := by
  show jsReplaceAllGo pat rep (c :: rest).length (c :: rest) = _
  rw [List.length_cons]
  unfold jsReplaceAllGo
  rw [if_neg h]
  rfl

/-- A single-character global replacement is the character-wise image. -/
theorem jsReplaceAll_single (a : Char) (rep : Str) :
    ∀ s : Str, jsReplaceAll [a] rep s =
      s.flatMap (fun c => if c = a then rep else [c]) := by
  intro s
  induction s with
  | nil => rfl
  | cons c rest ih =>
    by_cases hca : c = a
    · subst hca
      rw [jsReplaceAll_cons_match rep (by simp) (by simp [List.isPrefixOf])]
      have hd : rest.drop (([c] : Str).length - 1) = rest := by simp
      rw [hd, ih]
      simp [List.flatMap_cons]
    · rw [jsReplaceAll_cons_nomatch rep (by
        intro hcon
        obtain ⟨-, hp⟩ := hcon
        simp [List.isPrefixOf] at hp
        exact hca hp.symm)]
      rw [ih]
      simp [List.flatMap_cons, hca]

end Umber

namespace Umber

/-- The backslash pass is the identity on backslash-free strings. -/
theorem map_bs_eq_self : ∀ l : Str, '\\' ∉ l →
    l.map (fun c => if c = '\\' then '/' else c) = l := by
  intro l
  induction l with
  | nil => intro _; rfl
  | cons c rest ih =>
    intro h
    rw [List.mem_cons, not_or] at h
    obtain ⟨h1, h2⟩ := h
    simp only [List.map_cons]
    rw [if_neg (fun hc => h1 hc.symm), ih h2]

/-- On backslash-free normalized paths, `encodePath` is the
character-wise image of the two sentinel replacements. -/
theorem encodePath_eq_flatMap (p : Str) (hbs : '\\' ∉ posixNormalize p) :
    encodePath p = (posixNormalize p).flatMap encodeCharIm := by
  unfold encodePath
  rw [map_bs_eq_self _ hbs]
  rw [show str "/" = ['/'] from rfl, show str "." = ['.'] from rfl]
  rw [jsReplaceAll_single, jsReplaceAll_single, List.bind_assoc]
  congr 1
  funext c
  by_cases h1 : c = '/'
  · subst h1
    rfl
  · by_cases h2 : c = '.'
    · subst h2
      rfl
    · simp [encodeCharIm, h1, h2]

end Umber

namespace Umber

/-- The dot-separation predicate passes to the tail. -/
theorem dotSeparated_tail : ∀ {c : Char} {t : Str},
    dotSeparated (c :: t) = true → dotSeparated t = true := by
  intro c t h
  cases t with
  | nil => rfl
  | cons x r =>
    unfold dotSeparated at h
    simp only [Bool.and_eq_true] at h
    exact h.2

/-- After a dot, the next character is neither a dot nor a slash. -/
theorem dotSeparated_dot_head : ∀ {x : Char} {r : Str},
    dotSeparated ('.' :: x :: r) = true → x ≠ '.' ∧ x ≠ '/' := by
  intro x r h
  unfold dotSeparated at h
  simp only [Bool.and_eq_true] at h
  obtain ⟨h1, _⟩ := h
  simpa using h1

/-- The scan of the empty string. -/
theorem jsReplaceAll_nil (pat rep : Str) : jsReplaceAll pat rep [] = [] := rfl

/-- First decoding pass: on the image of an underscore-free,
dot-separated string, replacing `"__"` by `"/"` recovers exactly the
slash images and leaves the dot images intact. -/
theorem decode_pass1 : ∀ q : Str, '_' ∉ q → dotSeparated q = true →
    jsReplaceAll ['_', '_'] ['/'] (q.flatMap encodeCharIm) =
      q.flatMap decodeMidIm := by
  intro q
  induction q with
  | nil => intro _ _; rfl
  | cons c t ih =>
    intro hu hd
    rw [List.mem_cons, not_or] at hu
    obtain ⟨huc, hut⟩ := hu
    have hdt : dotSeparated t = true := dotSeparated_tail hd
    by_cases h1 : c = '/'
    · subst h1
      have hflat : ('/' :: t).flatMap encodeCharIm =
          '_' :: '_' :: t.flatMap encodeCharIm := by
        simp [List.flatMap_cons, encodeCharIm, str]
      rw [hflat]
      rw [jsReplaceAll_cons_match _ (by simp) (by simp [List.isPrefixOf])]
      have hdrop : (('_' :: t.flatMap encodeCharIm).drop
          ((['_', '_'] : Str).length - 1)) = t.flatMap encodeCharIm := by simp
      rw [hdrop, ih hut hdt]
      simp [List.flatMap_cons, decodeMidIm]
    · by_cases h2 : c = '.'
      · subst h2
        have hflat : ('.' :: t).flatMap encodeCharIm =
            '_' :: 'd' :: 'o' :: 't' :: '_' :: t.flatMap encodeCharIm := by
          simp [List.flatMap_cons, encodeCharIm, str]
        rw [hflat]
        rw [jsReplaceAll_cons_nomatch _ (by
          intro hcon
          obtain ⟨-, hp⟩ := hcon
          simp [List.isPrefixOf] at hp)]
        rw [jsReplaceAll_cons_nomatch _ (by
          intro hcon
          obtain ⟨-, hp⟩ := hcon
          simp [List.isPrefixOf] at hp)]
        rw [jsReplaceAll_cons_nomatch _ (by
          intro hcon
          obtain ⟨-, hp⟩ := hcon
          simp [List.isPrefixOf] at hp)]
        rw [jsReplaceAll_cons_nomatch _ (by
          intro hcon
          obtain ⟨-, hp⟩ := hcon
          simp [List.isPrefixOf] at hp)]
        cases t with
        | nil =>
          rw [jsReplaceAll_cons_nomatch _ (by
            intro hcon
            obtain ⟨-, hp⟩ := hcon
            simp [List.isPrefixOf] at hp)]
          simp [List.flatMap_cons, decodeMidIm, str, jsReplaceAll_nil]
        | cons x r =>
          obtain ⟨hxd, hxs⟩ := dotSeparated_dot_head hd
          have hxu : x ≠ '_' := by
            intro hx
            exact hut (by rw [← hx] at *; exact List.mem_cons_self x r)
          have hflat2 : (x :: r).flatMap encodeCharIm =
              x :: r.flatMap encodeCharIm := by
            simp [List.flatMap_cons, encodeCharIm, hxs, hxd]
          rw [hflat2]
          rw [jsReplaceAll_cons_nomatch _ (by
            intro hcon
            obtain ⟨-, hp⟩ := hcon
            simp [List.isPrefixOf] at hp
            exact hxu hp.symm)]
          rw [← hflat2, ih hut hdt]
          simp [List.flatMap_cons, decodeMidIm, str]
      · have hflat : (c :: t).flatMap encodeCharIm =
            c :: t.flatMap encodeCharIm := by
          simp [List.flatMap_cons, encodeCharIm, h1, h2]
        rw [hflat]
        rw [jsReplaceAll_cons_nomatch _ (by
          intro hcon
          obtain ⟨-, hp⟩ := hcon
          simp [List.isPrefixOf] at hp
          exact huc hp.1)]
        rw [ih hut hdt]
        simp [List.flatMap_cons, decodeMidIm, h1, h2]

/-- Second decoding pass: on the half-decoded image of an
underscore-free string, replacing `"_dot_"` by `"."` recovers the
original string. -/
theorem decode_pass2 : ∀ q : Str, '_' ∉ q →
    jsReplaceAll ['_', 'd', 'o', 't', '_'] ['.'] (q.flatMap decodeMidIm) = q := by
  intro q
  induction q with
  | nil => intro _; rfl
  | cons c t ih =>
    intro hu
    rw [List.mem_cons, not_or] at hu
    obtain ⟨huc, hut⟩ := hu
    by_cases h1 : c = '/'
    · subst h1
      have hflat : ('/' :: t).flatMap decodeMidIm =
          '/' :: t.flatMap decodeMidIm := by
        simp [List.flatMap_cons, decodeMidIm]
      rw [hflat]
      rw [jsReplaceAll_cons_nomatch _ (by
        intro hcon
        obtain ⟨-, hp⟩ := hcon
        simp [List.isPrefixOf] at hp)]
      rw [ih hut]
    · by_cases h2 : c = '.'
      · subst h2
        have hflat : ('.' :: t).flatMap decodeMidIm =
            '_' :: 'd' :: 'o' :: 't' :: '_' :: t.flatMap decodeMidIm := by
          simp [List.flatMap_cons, decodeMidIm, str]
        rw [hflat]
        rw [jsReplaceAll_cons_match _ (by simp)
          (List.isPrefixOf_iff_prefix.mpr ⟨t.flatMap decodeMidIm, rfl⟩)]
        have hdrop : (('d' :: 'o' :: 't' :: '_' :: t.flatMap decodeMidIm).drop
            ((['_', 'd', 'o', 't', '_'] : Str).length - 1)) =
            t.flatMap decodeMidIm := by simp
        rw [hdrop, ih hut]
        rfl
      · have hflat : (c :: t).flatMap decodeMidIm =
            c :: t.flatMap decodeMidIm := by
          simp [List.flatMap_cons, decodeMidIm, h1, h2]
        rw [hflat]
        rw [jsReplaceAll_cons_nomatch _ (by
          intro hcon
          obtain ⟨-, hp⟩ := hcon
          simp [List.isPrefixOf] at hp
          exact huc hp.1)]
        rw [ih hut]

end Umber

namespace Umber

/-- Claim C3, amended: the legacy codec round-trips on every relative
path whose normalized form is free of underscores and backslashes and
has no `'.'` immediately followed by `'.'` or `'/'` (such paths in
particular contain neither sentinel substring); without the extra
conditions the round trip fails (see the counterexample). -/
theorem decodePath_encodePath (p : Str)
    (h1 : '_' ∉ posixNormalize p) (h2 : '\\' ∉ posixNormalize p)
    (h3 : dotSeparated (posixNormalize p) = true) :
    decodePath (encodePath p) = posixNormalize p := by
  rw [encodePath_eq_flatMap p h2]
  unfold decodePath
  rw [show str "__" = ['_', '_'] from rfl, show str "/" = ['/'] from rfl,
    show str "_dot_" = ['_', 'd', 'o', 't', '_'] from rfl,
    show str "." = ['.'] from rfl]
  rw [decode_pass1 _ h1 h3, decode_pass2 _ h1]

/-- Claim C3, counterexample to the claim as stated: the relative path
`"a_/b"` contains neither sentinel substring, yet
`decodePath(encodePath("a_/b"))` is `"a/_b"`, not the normalized
`"a_/b"`: the underscore adjacent to the separator merges with the
slash image into `"___"`, and decoding resolves the first `"__"` of that
run as a separator. -/
theorem decodePath_encodePath_cex :
    containsSub (str "a_/b") (str "__") = false ∧
    containsSub (str "a_/b") (str "_dot_") = false ∧
    decodePath (encodePath (str "a_/b")) = str "a/_b" ∧
    decodePath (encodePath (str "a_/b")) ≠ posixNormalize (str "a_/b") := by
  decide

/-- Witness: the amended C3 statement evaluated at the README example
path `"data/moves/move.asm"`. -/
theorem decodePath_encodePath_witness :
    ('_' ∉ posixNormalize (str "data/moves/move.asm") ∧
     '\\' ∉ posixNormalize (str "data/moves/move.asm") ∧
     dotSeparated (posixNormalize (str "data/moves/move.asm")) = true) ∧
    decodePath (encodePath (str "data/moves/move.asm")) =
      posixNormalize (str "data/moves/move.asm") :=
  ⟨by decide, decodePath_encodePath (str "data/moves/move.asm")
    (by decide) (by decide) (by decide)⟩

end Umber

namespace Umber

/-- Claim C6, amended: with the two-step `updateTopic` of
`src/unnamed/part_007`, the update branch both writes the new fenced
content to the existing main post and refreshes the stored
`contentHash`, so every topic carrying the updated topic id records the
fingerprint of the newly pushed content (the `src/lib/nodebb.js`
`updateTopic` writes only the post content and leaves the stored hash
stale; see the counterexample). -/
theorem p7_update_refreshes_hash (store : Store) (tid pid : Nat)
    (lang contentStr : Str) (old : CustomData) (s2 : Store)
    (h : (p7UpdateTopic noFail store tid pid (codeFenceWith lang contentStr)
      { old with contentHash := part003FileHash contentStr }).2 = .ok s2) :
    (∀ t ∈ s2.topics, t.tid = tid →
      t.customData.contentHash = part003FileHash contentStr) ∧
    (∀ t ∈ s2.topics, t.mainPid = pid →
      t.mainContent = codeFenceWith lang contentStr) := by
  unfold p7UpdateTopic at h
  simp only [noFail, Except.ok.injEq] at h
  subst h
  constructor
  · intro t ht htid
    simp only [List.mem_map] at ht
    obtain ⟨t0, _, rfl⟩ := ht
    by_cases hcase : t0.tid == tid
    · simp [hcase]
    · rw [if_neg (by simpa using hcase)] at htid ⊢
      exact absurd htid (by simpa using hcase)
  · intro t ht hpid
    simp only [List.mem_map] at ht
    obtain ⟨t0, ⟨t1, -, rfl⟩, rfl⟩ := ht
    by_cases hcase : (t1.mainPid == pid) = true
    · simp only [if_pos hcase]
      split <;> simp
    · exfalso
      rw [if_neg hcase] at hpid
      have ht1 : t1.mainPid = pid := by
        split at hpid
        · simpa using hpid
        · exact hpid
      exact absurd ht1 (by simpa using hcase)

/-- Claim C6, counterexample to the claim as stated: the
`src/umber.js` update branch with the `src/lib/nodebb.js` `updateTopic`
issues only the post-content write; after the update the stored hash is
still the stale `"stale"`, which differs from the fingerprint of the
newly pushed content `"hello"`. -/
theorem umber_update_stale_hash_cex :
    ((importFileStep noFail staleStore ⟨str "docs/a.txt", str "hello"⟩
        (str "u") 7).1.filter RemoteCall.isWrite = [RemoteCall.putPost 1]) ∧
    ((stepStore (importFileStep noFail staleStore ⟨str "docs/a.txt", str "hello"⟩
        (str "u") 7) staleStore).topics.map
      (fun t => t.customData.contentHash)) = [str "stale"] ∧
    str "stale" ≠ umberFileHash (str "hello") := by decide

/-- Witness: the amended C6 statement evaluated on the stale-store
fixture. -/
theorem p7_update_refreshes_hash_witness :
    ((p7UpdateTopic noFail staleStore 1 1 (codeFenceWith (str "txt") (str "hello"))
        { ({ contentHash := str "stale" } : CustomData) with
          contentHash := part003FileHash (str "hello") }).2 =
      .ok (updStore (p7UpdateTopic noFail staleStore 1 1
        (codeFenceWith (str "txt") (str "hello"))
        { ({ contentHash := str "stale" } : CustomData) with
          contentHash := part003FileHash (str "hello") }) staleStore)) ∧
    ((∀ t ∈ (updStore (p7UpdateTopic noFail staleStore 1 1
        (codeFenceWith (str "txt") (str "hello"))
        { ({ contentHash := str "stale" } : CustomData) with
          contentHash := part003FileHash (str "hello") }) staleStore).topics,
        t.tid = 1 → t.customData.contentHash = part003FileHash (str "hello")) ∧
     (∀ t ∈ (updStore (p7UpdateTopic noFail staleStore 1 1
        (codeFenceWith (str "txt") (str "hello"))
        { ({ contentHash := str "stale" } : CustomData) with
          contentHash := part003FileHash (str "hello") }) staleStore).topics,
        t.mainPid = 1 → t.mainContent = codeFenceWith (str "txt") (str "hello"))) :=
  ⟨by decide, p7_update_refreshes_hash staleStore 1 1 (str "txt") (str "hello")
    { contentHash := str "stale" } _ (by decide)⟩

end Umber

namespace Umber

/-- Claim C8, amended: in the `src/umber.js` + `src/lib/nodebb.js`
pipeline any per-file failure (a thrown transport error from lookup,
category resolution, create or update) aborts the whole pass: the pass
result is that error and the call log contains only the failing file's
calls, so no subsequent file is processed.  The `src/unnamed/part_008`
lookup swallows non-404 transport errors instead (see the
counterexample). -/
theorem import_pass_fail_fast (F : FailSpec) (repoUrl : Str) (uid : Nat)
    (store : Store) (acc : List TocEntry) (file : UmberFile)
    (files : List UmberFile) (e : HttpErr)
    (h : (importFileStep F store file repoUrl uid).2 = .error e) :
    (processFiles F repoUrl uid store acc (file :: files)).2 = .error e ∧
    (processFiles F repoUrl uid store acc (file :: files)).1 =
      (importFileStep F store file repoUrl uid).1.map
        (fun c => (file.filePath, c)) := by
  have hsplit : processFiles F repoUrl uid store acc (file :: files) =
      ((importFileStep F store file repoUrl uid).1.map
        (fun c => (file.filePath, c)), .error e) := by
    simp [processFiles, h]
  rw [hsplit]
  exact ⟨rfl, rfl⟩

/-- Claim C8, counterexample to the claim as stated: in the
`src/unnamed/part_001` + `src/unnamed/part_008` pipeline, a 500 transport
error injected on the tag-search lookup for `a.txt` is swallowed (the
catch returns not-found), the pass does not abort, and the second file
`b.txt` is still processed (its calls appear in the log). -/
theorem p8_lookup_error_not_fail_fast_cex :
    failLookupA (RemoteCall.getSearchTag (encodePath (str "a.txt"))) =
      some (HttpErr.status 500) ∧
    ((p1ProcessFilesP8 failLookupA (str "u") 7 emptyStore []
        [⟨str "a.txt", str "x"⟩, ⟨str "b.txt", str "y"⟩]).1.contains
      (str "a.txt", RemoteCall.getSearchTag (encodePath (str "a.txt")))) = true ∧
    ((p1ProcessFilesP8 failLookupA (str "u") 7 emptyStore []
        [⟨str "a.txt", str "x"⟩, ⟨str "b.txt", str "y"⟩]).1.any
      (fun pr => pr.1 == str "b.txt")) = true ∧
    (p1ProcessFilesP8 failLookupA (str "u") 7 emptyStore []
        [⟨str "a.txt", str "x"⟩, ⟨str "b.txt", str "y"⟩]).2 ≠
      .error (HttpErr.status 500) := by decide

/-- Witness: the amended C8 statement evaluated with a network failure
injected on the category listing for `docs`. -/
theorem import_pass_fail_fast_witness :
    ((importFileStep failCatF fixtureStore ⟨str "docs/a.txt", str "hello"⟩
        (str "u") 7).2 = .error HttpErr.network) ∧
    ((processFiles failCatF (str "u") 7 fixtureStore []
        [⟨str "docs/a.txt", str "hello"⟩, ⟨str "docs/b.txt", str "z"⟩]).2 =
      .error HttpErr.network ∧
     (processFiles failCatF (str "u") 7 fixtureStore []
        [⟨str "docs/a.txt", str "hello"⟩, ⟨str "docs/b.txt", str "z"⟩]).1 =
       (importFileStep failCatF fixtureStore ⟨str "docs/a.txt", str "hello"⟩
         (str "u") 7).1.map (fun c => (str "docs/a.txt", c))) :=
  ⟨by decide, import_pass_fail_fast failCatF (str "u") 7 fixtureStore []
    ⟨str "docs/a.txt", str "hello"⟩ [⟨str "docs/b.txt", str "z"⟩]
    HttpErr.network (by decide)⟩

end Umber

namespace Umber

/-- Decimal renderings start with a decimal digit. -/
theorem natToStrGo_head_digit : ∀ fuel n c rest,
    natToStrGo fuel n = c :: rest → 48 ≤ c.toNat ∧ c.toNat ≤ 57 := by
  intro fuel
  induction fuel with
  | zero => intro n c rest h; cases h
  | succ fuel ih =>
    intro n c rest h
    unfold natToStrGo at h
    split at h
    · rename_i hn
      rw [List.cons.injEq] at h
      obtain ⟨rfl, -⟩ := h
      unfold digitChar
      interval_cases n <;> decide
    · cases hrec : natToStrGo fuel (n / 10) with
      | nil =>
        rw [hrec, List.nil_append, List.cons.injEq] at h
        obtain ⟨rfl, -⟩ := h
        have : n % 10 < 10 := Nat.mod_lt _ (by omega)
        unfold digitChar
        interval_cases hmod : (n % 10) <;> decide
      | cons c2 r2 =>
        rw [hrec, List.cons_append, List.cons.injEq] at h
        obtain ⟨rfl, -⟩ := h
        exact ih (n / 10) c2 r2 hrec

/-- Decimal renderings are nonempty. -/
theorem natToStr_ne_nil (n : Nat) : natToStr n ≠ [] := by
  unfold natToStr natToStrGo
  split
  · simp
  · simp

/-- The per-segment cache key for a positive parent id starts with a
decimal digit. -/
theorem p7CacheKey_pos_head (c : Nat) (hc : 1 ≤ c) (part : Str) :
    ∃ d rest, p7CacheKey (some c) part = d :: rest ∧
      48 ≤ d.toNat ∧ d.toNat ≤ 57 := by
  unfold p7CacheKey
  have : jsFalsyToNull (some c) = some c := by
    unfold jsFalsyToNull
    match c, hc with
    | n + 1, _ => rfl
  rw [this]
  cases hrec : natToStr c with
  | nil => exact absurd hrec (natToStr_ne_nil c)
  | cons d rest =>
    obtain ⟨h1, h2⟩ := natToStrGo_head_digit (c + 1) c d rest hrec
    refine ⟨d, rest ++ str ":" ++ part, ?_, h1, h2⟩
    show natToStr c ++ str ":" ++ part = d :: (rest ++ str ":" ++ part)
    rw [hrec]
    rfl

/-- Overwriting a different key does not change which entry a lookup
finds. -/
theorem find_map_overwrite (k k2 : Str) (v : Nat) (h : ¬ k = k2) :
    ∀ cache : CatCache,
      List.find? (fun p => p.1 == k)
        (cache.map (fun p => if (p.1 == k2) = true then (k2, v) else p)) =
      List.find? (fun p => p.1 == k) cache := by
  intro cache
  induction cache with
  | nil => rfl
  | cons p rest ih =>
    simp only [List.map_cons]
    by_cases hp : (p.1 == k2) = true
    · rw [if_pos hp]
      have hk2 : (k2 == k) = false := by
        simp only [beq_eq_false_iff_ne, ne_eq]
        intro hcon
        exact h hcon.symm
      have hpk : (p.1 == k) = false := by
        simp only [beq_eq_false_iff_ne, ne_eq]
        intro hcon
        rw [beq_iff_eq] at hp
        rw [hp] at hcon
        exact h hcon.symm
      rw [List.find?_cons, List.find?_cons]
      simp only [hk2, hpk]
      exact ih
    · rw [if_neg hp]
      rw [List.find?_cons, List.find?_cons]
      by_cases hpk : (p.1 == k) = true
      · simp only [hpk]
      · simp only [Bool.not_eq_true] at hpk
        simp only [hpk]
        exact ih

/-- Overwriting a present key makes a lookup find the new value. -/
theorem find_map_overwrite_self (k : Str) (v : Nat) :
    ∀ cache : CatCache,
      (List.find? (fun p => p.1 == k) cache).isSome = true →
      List.find? (fun p => p.1 == k)
        (cache.map (fun p => if (p.1 == k) = true then (k, v) else p)) =
      some (k, v) := by
  intro cache
  induction cache with
  | nil => intro h; cases h
  | cons q rest ih =>
    intro hp
    simp only [List.map_cons]
    by_cases hq : (q.1 == k) = true
    · rw [if_pos hq]
      simp [List.find?_cons]
    · rw [if_neg hq]
      rw [List.find?_cons] at hp
      simp only [Bool.not_eq_true] at hq
      rw [hq] at hp
      simp only [List.find?_cons]
      rw [hq]
      exact ih hp

/-- Cache reads are unchanged by writes under a different key. -/
theorem cacheGet_set_ne (cache : CatCache) (k k2 : Str) (v : Nat)
    (h : ¬ k = k2) : cacheGet (cacheSet cache k2 v) k = cacheGet cache k := by
  unfold cacheSet
  split
  · unfold cacheGet
    rw [find_map_overwrite k k2 v h cache]
  · unfold cacheGet
    rw [List.find?_append]
    have hone : List.find? (fun p => p.1 == k) [(k2, v)] = none := by
      simp only [List.find?_cons, List.find?_nil]
      have : (k2 == k) = false := by
        simp only [beq_eq_false_iff_ne, ne_eq]
        intro hcon
        exact h hcon.symm
      simp [this]
    rw [hone]
    cases List.find? (fun p => p.1 == k) cache <;> rfl

/-- Reading back the key that was just written. -/
theorem cacheGet_set_self (cache : CatCache) (k : Str) (v : Nat) :
    cacheGet (cacheSet cache k v) k = some v := by
  unfold cacheSet
  split
  · rename_i hfound
    unfold cacheGet
    rw [find_map_overwrite_self k v cache hfound]
    rfl
  · unfold cacheGet
    rw [List.find?_append]
    cases hfind : List.find? (fun p => p.1 == k) cache with
    | some p =>
      rename_i hnone
      rw [hfind] at hnone
      simp at hnone
    | none => simp [List.find?_cons]

end Umber

namespace Umber

/-- The cached resolver issues calls only for the segments it is given:
a segment name absent from the list is never touched. -/
theorem p7ResolveSegs_callsFor_absent (a : Str) :
    ∀ segs (store : Store) (cache : CatCache) (p : Option Nat),
      (∀ part ∈ segs, part ≠ a) →
      callsForSegment a (p7ResolveSegs noFail store cache p segs).1 = [] := by
  intro segs
  induction segs with
  | nil => intro store cache p _; rfl
  | cons part rest ih =>
    intro store cache p habs
    have hpart : part ≠ a := habs part (List.mem_cons_self _ _)
    have hrest : ∀ q ∈ rest, q ≠ a :=
      fun q hq => habs q (List.mem_cons_of_mem _ hq)
    have hbeq : (part == a) = false := by
      simp only [beq_eq_false_iff_ne, ne_eq]
      exact hpart
    unfold p7ResolveSegs
    cases hget : cacheGet cache (p7CacheKey p part) with
    | some cid =>
      simp only [hget]
      exact ih store cache (some cid) hrest
    | none =>
      simp only [hget, noFail]
      cases hfind : (store.categories.filter
          (fun c => jsFalsyToNull c.parentCid == p)).find?
          (fun c => ciEq c.name part) with
      | some cat =>
        simp only [hfind, callsForSegment, List.filter_cons, hbeq]
        exact ih _ _ _ hrest
      | none =>
        simp only [hfind, callsForSegment, List.filter_cons, hbeq]
        exact ih _ _ _ hrest

end Umber

namespace Umber

/-- Cache writes with positive values preserve value positivity. -/
theorem cacheSet_pos (cache : CatCache) (k : Str) (v : Nat)
    (hc : ∀ q ∈ cache, 1 ≤ q.2) (hv : 1 ≤ v) :
    ∀ q ∈ cacheSet cache k v, 1 ≤ q.2 := by
  intro q hq
  unfold cacheSet at hq
  split at hq
  · simp only [List.mem_map] at hq
    obtain ⟨p, hp, rfl⟩ := hq
    split
    · exact hv
    · exact hc p hp
  · rcases List.mem_append.mp hq with h | h
    · exact hc q h
    · rw [List.mem_singleton] at h
      subst h
      exact hv

/-- Specification of the cached resolver under the failure-free
transport, starting from a positive parent id: it succeeds with a
positive resulting id, preserves id positivity of the store and the
cache, and leaves every cache key that does not start with a decimal
digit unchanged (all keys it writes are `parentCid:segment` keys, which
start with a digit). -/
theorem p7ResolveSegs_spec :
    ∀ segs (store : Store) (cache : CatCache) (c : Nat),
      1 ≤ store.nextCid → (∀ cat ∈ store.categories, 1 ≤ cat.cid) →
      (∀ q ∈ cache, 1 ≤ q.2) → 1 ≤ c →
      ∃ s2 cache2 n,
        (p7ResolveSegs noFail store cache (some c) segs).2 =
          .ok (s2, cache2, some n) ∧
        1 ≤ n ∧ 1 ≤ s2.nextCid ∧ (∀ cat ∈ s2.categories, 1 ≤ cat.cid) ∧
        (∀ q ∈ cache2, 1 ≤ q.2) ∧
        (∀ k : Str, (∀ d rest2, k = d :: rest2 → d.toNat < 48 ∨ 57 < d.toNat) →
          cacheGet cache2 k = cacheGet cache k) := by
  intro segs
  induction segs with
  | nil =>
    intro store cache c hn hcat hcache hc
    exact ⟨store, cache, c, rfl, hc, hn, hcat, hcache, fun k _ => rfl⟩
  | cons part rest ih =>
    intro store cache c hn hcat hcache hc
    unfold p7ResolveSegs
    cases hget : cacheGet cache (p7CacheKey (some c) part) with
    | some cid =>
      simp only [hget]
      have hcid : 1 ≤ cid := by
        unfold cacheGet at hget
        cases hfind : List.find? (fun p => p.1 == p7CacheKey (some c) part) cache with
        | none => rw [hfind] at hget; cases hget
        | some q =>
          rw [hfind] at hget
          have hqmem : q ∈ cache := List.mem_of_find?_eq_some hfind
          have hq2 : q.2 = cid := by simpa using hget
          rw [← hq2]
          exact hcache q hqmem
      exact ih store cache cid hn hcat hcache hcid
    | none =>
      simp only [hget, noFail]
      obtain ⟨d, kr, hkey, hd1, hd2⟩ := p7CacheKey_pos_head c hc part
      cases hfind : (store.categories.filter
          (fun cat => jsFalsyToNull cat.parentCid == some c)).find?
          (fun cat => ciEq cat.name part) with
      | some cat =>
        simp only [hfind]
        have hcatmem : cat ∈ store.categories :=
          List.mem_of_mem_filter (List.mem_of_find?_eq_some hfind)
        have hcatpos : 1 ≤ cat.cid := hcat cat hcatmem
        have hcache1 : ∀ q ∈ cacheSet cache (p7CacheKey (some c) part) cat.cid,
            1 ≤ q.2 := cacheSet_pos _ _ _ hcache hcatpos
        obtain ⟨s2, cache2, n, heq, hnpos, hn2, hcat2, hcache2, hpres⟩ :=
          ih store (cacheSet cache (p7CacheKey (some c) part) cat.cid)
            cat.cid hn hcat hcache1 hcatpos
        refine ⟨s2, cache2, n, heq, hnpos, hn2, hcat2, hcache2, ?_⟩
        intro k hk
        rw [hpres k hk]
        apply cacheGet_set_ne
        intro hkk
        rcases (hk d kr (by rw [hkk, hkey])) with h | h <;> omega
      | none =>
        simp only [hfind]
        have hn2 : 1 ≤ store.nextCid + 1 := by omega
        have hcat2 : ∀ cat2 ∈ store.categories ++
            [⟨store.nextCid, part, some c⟩], 1 ≤ RCategory.cid cat2 := by
          intro cat2 hmem
          rcases List.mem_append.mp hmem with h | h
          · exact hcat cat2 h
          · rw [List.mem_singleton] at h
            subst h
            exact hn
        have hcache1 : ∀ q ∈ cacheSet cache (p7CacheKey (some c) part)
            store.nextCid, 1 ≤ q.2 := cacheSet_pos _ _ _ hcache hn
        obtain ⟨s2, cache2, n, heq, hnpos, hn3, hcat3, hcache2, hpres⟩ :=
          ih ({ store with nextCid := store.nextCid + 1, categories := store.categories ++ [⟨store.nextCid, part, some c⟩] }) (cacheSet cache (p7CacheKey (some c) part) store.nextCid) store.nextCid hn2 hcat2 hcache1 hn
        refine ⟨s2, cache2, n, heq, hnpos, hn3, hcat3, hcache2, ?_⟩
        intro k hk
        rw [hpres k hk]
        apply cacheGet_set_ne
        intro hkk
        rcases (hk d kr (by rw [hkk, hkey])) with h | h <;> omega

end Umber

namespace Umber

/-- The calls of the cached wrapper on a cache miss are exactly those of
the segment resolution. -/
theorem p7FindOrCreate_calls (st : Store) (ca : CatCache) (path : Str)
    (hguard : ¬(path = str "." ∨ path = [])) (hg : cacheGet ca path = none) :
    (p7FindOrCreateCategoryByPath noFail st ca path).1 =
      (p7ResolveSegs noFail st ca none ((posixNormalize path).splitOn '/')).1 := by
  unfold p7FindOrCreateCategoryByPath
  rw [if_neg hguard, hg]
  cases hres : (p7ResolveSegs noFail st ca none
      ((posixNormalize path).splitOn '/')).2 with
  | error e => simp [hres]
  | ok v =>
    obtain ⟨st1, ca1, pc⟩ := v
    cases pc <;> simp [hres]

/-- The result of the cached wrapper on a cache miss: the resolution
result, with the full path recorded in the cache on success. -/
theorem p7FindOrCreate_result (st : Store) (ca : CatCache) (path : Str)
    (hguard : ¬(path = str "." ∨ path = [])) (hg : cacheGet ca path = none) :
    (p7FindOrCreateCategoryByPath noFail st ca path).2 =
      (match (p7ResolveSegs noFail st ca none
          ((posixNormalize path).splitOn '/')).2 with
        | .error e => .error e
        | .ok (st1, ca1, some n) => .ok (st1, cacheSet ca1 path n, some n)
        | .ok (st1, ca1, none) => .ok (st1, ca1, none)) := by
  unfold p7FindOrCreateCategoryByPath
  rw [if_neg hguard, hg]
  cases hres : (p7ResolveSegs noFail st ca none
      ((posixNormalize path).splitOn '/')).2 with
  | error e => simp [hres]
  | ok v =>
    obtain ⟨st1, ca1, pc⟩ := v
    cases pc <;> simp [hres]

/-- Calls matching the exact root lookup of segment `a` are among the
calls attributed to segment `a`. -/
theorem filter_lookup_a_nil {l : List RemoteCall}
    (hl : callsForSegment (str "a") l = []) :
    l.filter (fun cl => cl == RemoteCall.getCategories (str "a") none) = [] := by
  apply List.filter_eq_nil_iff.mpr
  intro cl hcl hbeq
  have hcl2 : cl = RemoteCall.getCategories (str "a") none := by
    simpa using hbeq
  have : cl ∈ callsForSegment (str "a") l := by
    apply List.mem_filter.mpr
    refine ⟨hcl, ?_⟩
    rw [hcl2]
    simp
  rw [hl] at this
  cases this

/-- Creations of a category named `a` are among the calls attributed to
segment `a`. -/
theorem filter_create_a_nil {l : List RemoteCall}
    (hl : callsForSegment (str "a") l = []) :
    l.filter (fun cl => match cl with
      | RemoteCall.postCategory nm _ => nm == str "a"
      | _ => false) = [] := by
  apply List.filter_eq_nil_iff.mpr
  intro cl hcl hbeq
  have : cl ∈ callsForSegment (str "a") l := by
    apply List.mem_filter.mpr
    refine ⟨hcl, ?_⟩
    match cl, hbeq with
    | RemoteCall.postCategory nm p, hb => simpa using hb
  rw [hl] at this
  cases this

end Umber

namespace Umber

/-- Claim C5, amended: the cached resolver of `src/unnamed/part_007` is
memoized per `(parentCid, segment)` key: resolving `a/b` and then `a/c`
issues exactly one listing call for the shared segment `a` (all during
the first resolution; the second resolution issues no call attributed to
`a`), and creates a category named `a` at most once.  The uncached
resolver of `src/lib/nodebb.js` issues two listing calls for `a` (see
the counterexample). -/
theorem p7_category_memoization (store : Store)
    (hn : 1 ≤ store.nextCid) (hcat : ∀ cat ∈ store.categories, 1 ≤ cat.cid)
    (s1 : Store) (c1 : CatCache) (cid1 : Option Nat)
    (h1 : (p7FindOrCreateCategoryByPath noFail store [] (str "a/b")).2 =
      .ok (s1, c1, cid1)) :
    callsForSegment (str "a")
      (p7FindOrCreateCategoryByPath noFail s1 c1 (str "a/c")).1 = [] ∧
    ((p7FindOrCreateCategoryByPath noFail store [] (str "a/b")).1.filter
      (fun cl => cl == RemoteCall.getCategories (str "a") none)).length = 1 ∧
    ((p7FindOrCreateCategoryByPath noFail store [] (str "a/b")).1.filter
      (fun cl => match cl with
        | RemoteCall.postCategory nm _ => nm == str "a"
        | _ => false)).length ≤ 1 := by
  have hguard1 : ¬(str "a/b" = str "." ∨ str "a/b" = ([] : Str)) := by decide
  have hguard2 : ¬(str "a/c" = str "." ∨ str "a/c" = ([] : Str)) := by decide
  have hparts1 : (posixNormalize (str "a/b")).splitOn '/' = [str "a", str "b"] := by
    decide
  have hparts2 : (posixNormalize (str "a/c")).splitOn '/' = [str "a", str "c"] := by
    decide
  have hcalls1 := p7FindOrCreate_calls store [] (str "a/b") hguard1 rfl
  have hres1 := p7FindOrCreate_result store [] (str "a/b") hguard1 rfl
  rw [hparts1] at hcalls1 hres1
  rw [hres1] at h1
  have hgood_a : ∀ (d : Char) (r2 : List Char), str "a" = d :: r2 →
      d.toNat < 48 ∨ 57 < d.toNat := by
    intro d r2 hdr
    rw [show str "a" = 'a' :: ([] : List Char) from rfl, List.cons.injEq] at hdr
    obtain ⟨hd, -⟩ := hdr
    rw [← hd]
    right
    decide
  cases hfindA : (store.categories.filter
      (fun c => jsFalsyToNull c.parentCid == none)).find?
      (fun c => ciEq c.name (str "a")) with
  | some cat =>
    have hR : p7ResolveSegs noFail store [] none [str "a", str "b"] =
        (RemoteCall.getCategories (str "a") none ::
          (p7ResolveSegs noFail store [(str "a", cat.cid)]
            (some cat.cid) [str "b"]).1,
         (p7ResolveSegs noFail store [(str "a", cat.cid)]
            (some cat.cid) [str "b"]).2) := by
      unfold p7ResolveSegs
      simp only [show cacheGet ([] : CatCache) (p7CacheKey none (str "a")) = none
          from rfl, noFail, hfindA,
        show cacheSet ([] : CatCache) (p7CacheKey none (str "a")) cat.cid =
          [(str "a", cat.cid)] from rfl]
      rfl
    have hcatpos : 1 ≤ cat.cid :=
      hcat cat (List.mem_of_mem_filter (List.mem_of_find?_eq_some hfindA))
    have hcache0 : ∀ q ∈ ([(str "a", cat.cid)] : CatCache), 1 ≤ q.2 := by
      intro q hq
      rw [List.mem_singleton] at hq
      subst hq
      exact hcatpos
    obtain ⟨s2, cache2, n, heq, hnpos, hn2, hcat2, hcache2, hpres⟩ :=
      p7ResolveSegs_spec [str "b"] store [(str "a", cat.cid)] cat.cid
        hn hcat hcache0 hcatpos
    rw [hR] at h1
    simp only [] at h1
    rw [heq] at h1
    simp only [Except.ok.injEq, Prod.mk.injEq] at h1
    obtain ⟨h1a, h1b, h1c⟩ := h1
    have hgetA : cacheGet c1 (str "a") = some cat.cid := by
      rw [← h1b]
      rw [cacheGet_set_ne _ _ _ _ (by decide)]
      rw [hpres (str "a") hgood_a]
      simp [cacheGet]
    have htail := p7ResolveSegs_callsFor_absent (str "a") [str "b"] store
      [(str "a", cat.cid)] (some cat.cid) (by decide)
    refine ⟨?_, ?_, ?_⟩
    · cases hget2 : cacheGet c1 (str "a/c") with
      | some cid2 =>
        have hr2 : p7FindOrCreateCategoryByPath noFail s1 c1 (str "a/c") =
            ([], .ok (s1, c1, some cid2)) := by
          unfold p7FindOrCreateCategoryByPath
          rw [if_neg hguard2, hget2]
        rw [hr2]
        rfl
      | none =>
        have hc2 := p7FindOrCreate_calls s1 c1 (str "a/c") hguard2 hget2
        rw [hparts2] at hc2
        have hR2 : p7ResolveSegs noFail s1 c1 none [str "a", str "c"] =
            p7ResolveSegs noFail s1 c1 (some cat.cid) [str "c"] := by
          unfold p7ResolveSegs
          simp only [show p7CacheKey none (str "a") = str "a" from rfl, hgetA]
          rfl
        rw [hc2, hR2]
        exact p7ResolveSegs_callsFor_absent (str "a") [str "c"] s1 c1
          (some cat.cid) (by decide)
    · rw [hcalls1, hR]
      simp only [List.filter_cons]
      rw [filter_lookup_a_nil htail]
      simp
    · rw [hcalls1, hR]
      simp only [List.filter_cons]
      rw [filter_create_a_nil htail]
      simp
  | none =>
    have hR : p7ResolveSegs noFail store [] none [str "a", str "b"] =
        (RemoteCall.getCategories (str "a") none ::
          RemoteCall.postCategory (str "a") none ::
          (p7ResolveSegs noFail { store with nextCid := store.nextCid + 1, categories := store.categories ++ [⟨store.nextCid, str "a", none⟩] } [(str "a", store.nextCid)] (some store.nextCid) [str "b"]).1,
         (p7ResolveSegs noFail { store with nextCid := store.nextCid + 1, categories := store.categories ++ [⟨store.nextCid, str "a", none⟩] } [(str "a", store.nextCid)] (some store.nextCid) [str "b"]).2) := by
      unfold p7ResolveSegs
      simp only [show cacheGet ([] : CatCache) (p7CacheKey none (str "a")) = none
          from rfl, noFail, hfindA,
        show cacheSet ([] : CatCache) (p7CacheKey none (str "a")) store.nextCid =
          [(str "a", store.nextCid)] from rfl]
      rfl
    have hn2 : 1 ≤ store.nextCid + 1 := by omega
    have hcat2 : ∀ cat2 ∈ store.categories ++ [⟨store.nextCid, str "a", none⟩],
        1 ≤ RCategory.cid cat2 := by
      intro cat2 hmem
      rcases List.mem_append.mp hmem with h | h
      · exact hcat cat2 h
      · rw [List.mem_singleton] at h
        subst h
        exact hn
    have hcache0 : ∀ q ∈ ([(str "a", store.nextCid)] : CatCache), 1 ≤ q.2 := by
      intro q hq
      rw [List.mem_singleton] at hq
      subst hq
      exact hn
    obtain ⟨s2, cache2, n, heq, hnpos, hn3, hcat3, hcache2, hpres⟩ :=
      p7ResolveSegs_spec [str "b"]
        ({ store with nextCid := store.nextCid + 1, categories := store.categories ++ [⟨store.nextCid, str "a", none⟩] })
        [(str "a", store.nextCid)] store.nextCid hn2 hcat2 hcache0 hn
    rw [hR] at h1
    simp only [] at h1
    rw [heq] at h1
    simp only [Except.ok.injEq, Prod.mk.injEq] at h1
    obtain ⟨h1a, h1b, h1c⟩ := h1
    have hgetA : cacheGet c1 (str "a") = some store.nextCid := by
      rw [← h1b]
      rw [cacheGet_set_ne _ _ _ _ (by decide)]
      rw [hpres (str "a") hgood_a]
      simp [cacheGet]
    have htail := p7ResolveSegs_callsFor_absent (str "a") [str "b"]
      ({ store with nextCid := store.nextCid + 1, categories := store.categories ++ [⟨store.nextCid, str "a", none⟩] })
      [(str "a", store.nextCid)] (some store.nextCid) (by decide)
    refine ⟨?_, ?_, ?_⟩
    · cases hget2 : cacheGet c1 (str "a/c") with
      | some cid2 =>
        have hr2 : p7FindOrCreateCategoryByPath noFail s1 c1 (str "a/c") =
            ([], .ok (s1, c1, some cid2)) := by
          unfold p7FindOrCreateCategoryByPath
          rw [if_neg hguard2, hget2]
        rw [hr2]
        rfl
      | none =>
        have hc2 := p7FindOrCreate_calls s1 c1 (str "a/c") hguard2 hget2
        rw [hparts2] at hc2
        have hR2 : p7ResolveSegs noFail s1 c1 none [str "a", str "c"] =
            p7ResolveSegs noFail s1 c1 (some store.nextCid) [str "c"] := by
          unfold p7ResolveSegs
          simp only [show p7CacheKey none (str "a") = str "a" from rfl, hgetA]
          rfl
        rw [hc2, hR2]
        exact p7ResolveSegs_callsFor_absent (str "a") [str "c"] s1 c1
          (some store.nextCid) (by decide)
    · rw [hcalls1, hR]
      simp only [List.filter_cons]
      rw [filter_lookup_a_nil htail]
      simp
    · rw [hcalls1, hR]
      simp only [List.filter_cons]
      rw [filter_create_a_nil htail]
      simp

end Umber

namespace Umber

/-- Claim C5, counterexample to the claim as stated: the uncached
resolver of `src/lib/nodebb.js` keeps no memo table, so resolving `a/b`
and then `a/c` against the same remote state issues three remote calls
attributed to segment `a` — two listings plus one creation — not exactly
one. -/
theorem nodebb_category_no_memoization_cex :
    (callsForSegment (str "a")
      ((findOrCreateCategoryByPath noFail emptyStore (str "a/b") none).1 ++
       (findOrCreateCategoryByPath noFail
         (match (findOrCreateCategoryByPath noFail emptyStore (str "a/b") none).2 with
          | .ok p => p.1
          | .error _ => emptyStore) (str "a/c") none).1)).length = 3 ∧
    (((findOrCreateCategoryByPath noFail emptyStore (str "a/b") none).1 ++
      (findOrCreateCategoryByPath noFail
        (match (findOrCreateCategoryByPath noFail emptyStore (str "a/b") none).2 with
         | .ok p => p.1
         | .error _ => emptyStore) (str "a/c") none).1).filter
      (fun cl => cl == RemoteCall.getCategories (str "a") none)).length = 2 := by
  decide

/-- Witness: `p7_category_memoization` instantiated at the empty store. -/
theorem p7_category_memoization_witness :
    (p7FindOrCreateCategoryByPath noFail emptyStore [] (str "a/b")).2 =
      .ok (⟨3, 1, 1, [⟨1, str "a", none⟩, ⟨2, str "b", some 1⟩], [], []⟩,
           [(str "a", 1), (str "1:b", 2), (str "a/b", 2)], some 2) ∧
    (callsForSegment (str "a")
      (p7FindOrCreateCategoryByPath noFail
        ⟨3, 1, 1, [⟨1, str "a", none⟩, ⟨2, str "b", some 1⟩], [], []⟩
        [(str "a", 1), (str "1:b", 2), (str "a/b", 2)] (str "a/c")).1 = [] ∧
     ((p7FindOrCreateCategoryByPath noFail emptyStore [] (str "a/b")).1.filter
       (fun cl => cl == RemoteCall.getCategories (str "a") none)).length = 1 ∧
     ((p7FindOrCreateCategoryByPath noFail emptyStore [] (str "a/b")).1.filter
       (fun cl => match cl with
         | RemoteCall.postCategory nm _ => nm == str "a"
         | _ => false)).length ≤ 1) :=
  ⟨by decide,
   p7_category_memoization emptyStore (by decide) (by decide)
     ⟨3, 1, 1, [⟨1, str "a", none⟩, ⟨2, str "b", some 1⟩], [], []⟩
     [(str "a", 1), (str "1:b", 2), (str "a/b", 2)] (some 2) (by decide)⟩

end Umber

namespace Umber

/-- A falsy-normalized id that is `some v` comes from the id `some v`. -/
theorem jsFalsyToNull_eq_some {o : Option Nat} {v : Nat}
    (h : jsFalsyToNull o = some v) : o = some v := by
  cases o with
  | none => simp [jsFalsyToNull] at h
  | some x =>
    cases x with
    | zero => simp [jsFalsyToNull] at h
    | succ k => simpa [jsFalsyToNull] using h

/-- Falsy normalization keeps a positive id. -/
theorem jsFalsyToNull_some_pos {m : Nat} (h : 1 ≤ m) :
    jsFalsyToNull (some m) = some m := by
  cases m with
  | zero => omega
  | succ k => rfl

/-- `optLT` on a present id is the strict order. -/
theorem optLT_some {v n : Nat} : optLT (some v) n = true ↔ v < n := by
  simp [optLT]

/-- Every call issued by the topic lookup of `src/lib/nodebb.js` is a
read. -/
theorem findTopicByMetadata_reads (F : FailSpec) (s : Store) (tag : Str)
    (p : Option Nat) :
    ∀ c ∈ (findTopicByMetadata F s tag p).1, c.isWrite = false := by
  intro c hc
  simp only [findTopicByMetadata] at hc
  split at hc
  · simp at hc
  · split at hc
    · rw [List.mem_singleton] at hc
      subst hc
      rfl
    · split at hc
      · rw [List.mem_singleton] at hc
        subst hc
        rfl
      · split at hc
        · simp only [List.mem_cons, List.mem_singleton] at hc
          rcases hc with rfl | rfl | h
          · rfl
          · rfl
          · simp at h
        · simp only [List.mem_cons, List.mem_singleton] at hc
          rcases hc with rfl | rfl | h
          · rfl
          · rfl
          · simp at h

end Umber

namespace Umber

/-- Once the segment loop of `src/lib/nodebb.js` has created a category,
every remaining segment resolves under a freshly allocated parent id, so
the loop only returns fresh ids (at least the id just allocated) and
never touches the topic list. -/
theorem resolveSegs_fresh (F : FailSpec) :
    ∀ (segs : List Str) (s : Store) (m : Nat), 1 ≤ m → m + 1 = s.nextCid →
    (∀ c ∈ s.categories, optLT (jsFalsyToNull c.parentCid) m = true) →
    ∀ s2 p2, (resolveSegs F s (some m) segs).2 = .ok (s2, p2) →
    ∃ m2, p2 = some m2 ∧ m ≤ m2 ∧ s2.topics = s.topics := by
  intro segs
  induction segs with
  | nil =>
    intro s m hm hms hpar s2 p2 h
    simp only [resolveSegs, Except.ok.injEq, Prod.mk.injEq] at h
    obtain ⟨h1, h2⟩ := h
    exact ⟨m, h2.symm, le_refl m, by rw [← h1]⟩
  | cons part rest ih =>
    intro s m hm hms hpar s2 p2 h
    simp only [resolveSegs] at h
    cases hF : F (RemoteCall.getCategories part (some m)) with
    | some e =>
      simp only [hF] at h
      simp at h
    | none =>
      simp only [hF] at h
      cases hfind : s.categories.find? (fun c =>
          ciEq c.name part && (jsFalsyToNull c.parentCid == some m)) with
      | some c =>
        exfalso
        have hmem := List.mem_of_find?_eq_some hfind
        have hpred := List.find?_some hfind
        simp only [Bool.and_eq_true, beq_iff_eq] at hpred
        have hp := hpar c hmem
        rw [hpred.2, optLT_some] at hp
        omega
      | none =>
        cases hpc : F (RemoteCall.postCategory part (some m)) with
        | some e =>
          simp only [hfind, hpc] at h
          simp at h
        | none =>
          simp only [hfind, hpc] at h
          rw [← hms] at h
          have hpar2 : ∀ c ∈ s.categories ++ [(⟨m + 1, part, some m⟩ : RCategory)],
              optLT (jsFalsyToNull c.parentCid) (m + 1) = true := by
            intro c hc
            rcases List.mem_append.mp hc with hold | hnew
            · have hp := hpar c hold
              cases hj : jsFalsyToNull c.parentCid with
              | none => simp [optLT]
              | some v =>
                rw [hj, optLT_some] at hp
                rw [optLT_some]
                omega
            · rw [List.mem_singleton] at hnew
              subst hnew
              rw [show (⟨m + 1, part, some m⟩ : RCategory).parentCid = some m
                from rfl, jsFalsyToNull_some_pos hm, optLT_some]
              omega
          obtain ⟨m2, hp2, hle, htop⟩ := ih
            { s with nextCid := m + 1 + 1, categories := s.categories ++ [⟨m + 1, part, some m⟩] }
            (m + 1) (by omega) rfl hpar2 s2 p2 h
          exact ⟨m2, hp2, by omega, htop⟩

end Umber

namespace Umber

/-- Skip dichotomy for the segment loop of `src/lib/nodebb.js` over a
well-formed store: a successful resolution either leaves the store
unchanged, issues only reads and returns an already-allocated id, or
returns a freshly allocated id while leaving the topic list unchanged. -/
theorem resolveSegs_skip (F : FailSpec) :
    ∀ (segs : List Str) (s : Store) (parent : Option Nat),
    1 ≤ s.nextCid →
    (∀ c ∈ s.categories, c.cid < s.nextCid) →
    (∀ c ∈ s.categories, optLT (jsFalsyToNull c.parentCid) s.nextCid = true) →
    optLT parent s.nextCid = true →
    ∀ s2 p2, (resolveSegs F s parent segs).2 = .ok (s2, p2) →
    (s2 = s ∧ (∀ c ∈ (resolveSegs F s parent segs).1, c.isWrite = false) ∧
      optLT p2 s.nextCid = true) ∨
    (∃ m2, p2 = some m2 ∧ s.nextCid ≤ m2 ∧ s2.topics = s.topics) := by
  intro segs
  induction segs with
  | nil =>
    intro s parent hn hcid hpar hparent s2 p2 h
    simp only [resolveSegs, Except.ok.injEq, Prod.mk.injEq] at h
    obtain ⟨h1, h2⟩ := h
    left
    refine ⟨h1.symm, ?_, ?_⟩
    · intro c hc
      simp [resolveSegs] at hc
    · rw [← h2]
      exact hparent
  | cons part rest ih =>
    intro s parent hn hcid hpar hparent s2 p2 h
    simp only [resolveSegs] at h
    cases hF : F (RemoteCall.getCategories part parent) with
    | some e =>
      simp only [hF] at h
      simp at h
    | none =>
      simp only [hF] at h
      cases hfind : s.categories.find? (fun c =>
          ciEq c.name part && (jsFalsyToNull c.parentCid == parent)) with
      | some c =>
        simp only [hfind] at h
        have hmem := List.mem_of_find?_eq_some hfind
        have hccid : c.cid < s.nextCid := hcid c hmem
        rcases ih s (some c.cid) hn hcid hpar (by rw [optLT_some]; exact hccid)
            s2 p2 h with ⟨hseq, hreads, hbound⟩ | hfresh
        · left
          refine ⟨hseq, ?_, hbound⟩
          intro c2 hc2
          simp only [resolveSegs, hF, hfind] at hc2
          rcases List.mem_cons.mp hc2 with rfl | hc2
          · rfl
          · exact hreads c2 hc2
        · right
          exact hfresh
      | none =>
        cases hpc : F (RemoteCall.postCategory part parent) with
        | some e =>
          simp only [hfind, hpc] at h
          simp at h
        | none =>
          simp only [hfind, hpc] at h
          have hpar2 : ∀ c ∈ s.categories ++ [(⟨s.nextCid, part, parent⟩ : RCategory)],
              optLT (jsFalsyToNull c.parentCid) s.nextCid = true := by
            intro c hc
            rcases List.mem_append.mp hc with hold | hnew
            · exact hpar c hold
            · rw [List.mem_singleton] at hnew
              subst hnew
              rw [show (⟨s.nextCid, part, parent⟩ : RCategory).parentCid = parent
                from rfl]
              cases hj : jsFalsyToNull parent with
              | none => simp [optLT]
              | some v =>
                rw [optLT_some]
                have := jsFalsyToNull_eq_some hj
                rw [this, optLT_some] at hparent
                exact hparent
          obtain ⟨m2, hp2, hle, htop⟩ := resolveSegs_fresh F rest
            { s with nextCid := s.nextCid + 1, categories := s.categories ++ [⟨s.nextCid, part, parent⟩] }
            s.nextCid hn rfl hpar2 s2 p2 h
          right
          exact ⟨m2, hp2, hle, htop⟩

end Umber

namespace Umber

/-- Skip dichotomy lifted to `findOrCreateCategoryByPath` rooted at the
forum root. -/
theorem findOrCreate_skip (F : FailSpec) (s : Store) (path : Str)
    (hn : 1 ≤ s.nextCid)
    (hcid : ∀ c ∈ s.categories, c.cid < s.nextCid)
    (hpar : ∀ c ∈ s.categories, optLT (jsFalsyToNull c.parentCid) s.nextCid = true)
    (s2 : Store) (p2 : Option Nat)
    (h : (findOrCreateCategoryByPath F s path none).2 = .ok (s2, p2)) :
    (s2 = s ∧ (∀ c ∈ (findOrCreateCategoryByPath F s path none).1, c.isWrite = false) ∧
      optLT p2 s.nextCid = true) ∨
    (∃ m2, p2 = some m2 ∧ s.nextCid ≤ m2 ∧ s2.topics = s.topics) := by
  by_cases hdot : path = str "." ∨ path = []
  · unfold findOrCreateCategoryByPath at h ⊢
    rw [if_pos hdot] at h ⊢
    simp only [Except.ok.injEq, Prod.mk.injEq] at h
    obtain ⟨h1, h2⟩ := h
    left
    refine ⟨h1.symm, ?_, ?_⟩
    · intro c hc
      simp at hc
    · rw [← h2]
      rfl
  · unfold findOrCreateCategoryByPath at h ⊢
    rw [if_neg hdot] at h ⊢
    exact resolveSegs_skip F (path.splitOn '/') s none hn hcid hpar rfl s2 p2 h

/-- A successful topic lookup pins down the truthy parent id and returns
a topic of the store list attached to that id. -/
theorem findTopicByMetadata_found (F : FailSpec) (s : Store) (tag : Str)
    (p : Option Nat) (t : RTopic)
    (h : (findTopicByMetadata F s tag p).2 = .ok (some t)) :
    ∃ cid, jsFalsyToNull p = some cid ∧ t ∈ s.topics ∧ t.cid = some cid := by
  simp only [findTopicByMetadata] at h
  cases hj : jsFalsyToNull p with
  | none =>
    simp only [hj] at h
    simp at h
  | some cid =>
    simp only [hj] at h
    cases hF : F (RemoteCall.getCategoryTopics cid) with
    | some e =>
      simp only [hF] at h
      split at h <;> simp at h
    | none =>
      simp only [hF] at h
      cases hfind : (s.topics.filter (fun t2 => t2.cid == some cid)).find?
          (fun t2 => t2.tags.any (fun tg => ciEq tg tag)) with
      | none =>
        simp only [hfind] at h
        simp at h
      | some t0 =>
        simp only [hfind] at h
        cases hF2 : F (RemoteCall.getTopicDetails t0.tid) with
        | some e =>
          simp only [hF2] at h
          split at h <;> simp at h
        | none =>
          simp only [hF2] at h
          simp only [Except.ok.injEq, Option.some.injEq] at h
          subst h
          have hmem := List.mem_of_find?_eq_some hfind
          have hmem2 := List.mem_of_mem_filter hmem
          have hpred := List.of_mem_filter hmem
          rw [beq_iff_eq] at hpred
          exact ⟨cid, rfl, hmem2, hpred⟩

end Umber

namespace Umber

/-- Claim C2: when the topic lookup of the `src/umber.js` import action
finds an existing topic whose stored `contentHash` equals the
fingerprint of the file's current content, the per-file step issues no
write call at all — in particular no topic creation, update or reply —
and succeeds with the remote store exactly as it was, so re-reconciling
an unchanged file performs reads only. -/
theorem import_skip_no_writes (F : FailSpec) (store : Store) (file : UmberFile)
    (repoUrl : Str) (uid : Nat)
    (hn : 1 ≤ store.nextCid)
    (hcid : ∀ c ∈ store.categories, c.cid < store.nextCid)
    (hpar : ∀ c ∈ store.categories,
      optLT (jsFalsyToNull c.parentCid) store.nextCid = true)
    (htop : ∀ t2 ∈ store.topics, optLT t2.cid store.nextCid = true)
    (store1 : Store) (parentCid : Option Nat)
    (h1 : (findOrCreateCategoryByPath F store
      (posixDirname (posixNormalize file.filePath)) none).2 = .ok (store1, parentCid))
    (t : RTopic)
    (h2 : (findTopicByMetadata F store1
      (createFilenameTag (posixBasename (posixNormalize file.filePath)))
      parentCid).2 = .ok (some t))
    (h3 : t.customData.contentHash = umberFileHash file.content) :
    (∀ c ∈ (importFileStep F store file repoUrl uid).1, c.isWrite = false) ∧
    (importFileStep F store file repoUrl uid).2 =
      .ok (store, mkTocEntry (posixNormalize file.filePath)
        (posixBasename (posixNormalize file.filePath)) t.tid t.slug) := by
  obtain ⟨cid, hj, hmem, hcidt⟩ := findTopicByMetadata_found F store1 _ parentCid t h2
  have hsplit := findOrCreate_skip F store
    (posixDirname (posixNormalize file.filePath)) hn hcid hpar store1 parentCid h1
  have hstore1 : store1 = store ∧
      (∀ c ∈ (findOrCreateCategoryByPath F store
        (posixDirname (posixNormalize file.filePath)) none).1, c.isWrite = false) := by
    rcases hsplit with ⟨hs, hr, hb⟩ | ⟨m2, hp2, hm2, htops⟩
    · exact ⟨hs, hr⟩
    · exfalso
      subst hp2
      have hcm := jsFalsyToNull_eq_some hj
      rw [Option.some.injEq] at hcm
      subst hcm
      have hmem2 : t ∈ store.topics := by rw [← htops]; exact hmem
      have hb := htop t hmem2
      rw [hcidt, optLT_some] at hb
      omega
  obtain ⟨hseq, hreads1⟩ := hstore1
  subst store1
  have hstep : importFileStep F store file repoUrl uid =
      ((findOrCreateCategoryByPath F store
        (posixDirname (posixNormalize file.filePath)) none).1 ++
       (findTopicByMetadata F store
         (createFilenameTag (posixBasename (posixNormalize file.filePath)))
         parentCid).1,
       .ok (store, mkTocEntry (posixNormalize file.filePath)
         (posixBasename (posixNormalize file.filePath)) t.tid t.slug)) := by
    simp only [importFileStep]
    simp only [h1]
    simp only [h2]
    rw [if_neg (not_not_intro h3)]
  rw [hstep]
  refine ⟨?_, rfl⟩
  intro c hc
  rcases List.mem_append.mp hc with hcl | hcl
  · exact hreads1 c hcl
  · exact findTopicByMetadata_reads F store _ parentCid c hcl

end Umber

namespace Umber

/-- Witness: `import_skip_no_writes` at the fixture store, re-importing
`docs/a.txt` with its already-stored content `"hello"`. -/
theorem import_skip_no_writes_witness :
    (findTopicByMetadata noFail fixtureStore
      (createFilenameTag (posixBasename (posixNormalize (str "docs/a.txt"))))
      (some 1)).2 = .ok (some fixtureTopic) ∧
    fixtureTopic.customData.contentHash = umberFileHash (str "hello") ∧
    ((∀ c ∈ (importFileStep noFail fixtureStore ⟨str "docs/a.txt", str "hello"⟩
        (str "repo") 1).1, c.isWrite = false) ∧
     (importFileStep noFail fixtureStore ⟨str "docs/a.txt", str "hello"⟩
        (str "repo") 1).2 =
       .ok (fixtureStore, mkTocEntry (posixNormalize (str "docs/a.txt"))
         (posixBasename (posixNormalize (str "docs/a.txt")))
         fixtureTopic.tid fixtureTopic.slug)) :=
  ⟨by decide, by decide, import_skip_no_writes noFail fixtureStore
     ⟨str "docs/a.txt", str "hello"⟩
     (str "repo") 1 (by decide) (by decide) (by decide) (by decide)
     fixtureStore (some 1) (by decide) fixtureTopic (by decide) (by decide)⟩

end Umber
